import Mathlib

/-! # biner: combine and separate text files

A shallow embedding of `src/src/biner.cpp` (`biner::combine_files`,
`biner::separate_files` and the directory handling of `main`) together with
the properties of the pack/unpack engine.

Modelling conventions.

* `std::string` is a list of characters (`Str`).
* `std::size_t` is a natural number below `2 ^ 64`; additions and
  subtractions that the source performs on `size_t` are reduced modulo
  `2 ^ 64`, and `std::string::npos` is `2 ^ 64 - 1`.
* The filesystem is a `Disk`: a path resolver `key`, the bytes stored under
  each resolved path, and which resolved paths can be opened for reading and
  for writing.  Paths are POSIX paths (the `#else` branch of `main`).
* Exceptions and `std::exit` end a run with a `Status`; effects on the disk
  made before the failure stay, as in the source.
* The scan loop of `separate_files` may fail to terminate, so it takes fuel
  and returns `none` when the fuel runs out.
-/

namespace biner

/-! ## Strings and `size_t` -/

/-- Byte strings (`std::string`, `std::string_view`). -/
abbrev Str := List Char

/-- The value `std::string::npos`, that is `2 ^ 64 - 1`. -/
def npos : Nat := 18446744073709551615

/-- Reduction of a `size_t` result modulo `2 ^ 64`. -/
def wrap (n : Nat) : Nat := n % 18446744073709551616

/-- Subtraction on `size_t`: `a - b` modulo `2 ^ 64`. -/
def size_sub (a b : Nat) : Nat :=
  (a % 18446744073709551616 + 18446744073709551616 - b % 18446744073709551616)
    % 18446744073709551616

/-- Whether `pat` stands in `s` at offset `k`. -/
def occursAt (pat s : Str) (k : Nat) : Bool := pat.isPrefixOf (s.drop k)

/-- Left-to-right search used by `find`: `off` is the offset of `l` in the
searched string. -/
def findAt (pat : Str) : Str → Nat → Nat
  | [], off => if pat.isPrefixOf [] then off else npos
  | c :: t, off => if pat.isPrefixOf (c :: t) then off else findAt pat t (off + 1)

/-- The call `s.find(pat, pos)`: the least offset `>= pos` at which `pat`
stands in `s`, or `npos`. -/
def find (s pat : Str) (pos : Nat) : Nat :=
  if s.length < pos then npos else findAt pat (s.drop pos) pos

/-- The call `s.substr(pos, count)`; `none` is `std::out_of_range`. -/
def substr (s : Str) (pos count : Nat) : Option Str :=
  if s.length < pos then none else some ((s.drop pos).take count)

/-- The call `s.erase(pos, count)`; `none` is `std::out_of_range`. -/
def erase (s : Str) (pos count : Nat) : Option Str :=
  if s.length < pos then none else some (s.take pos ++ (s.drop pos).drop count)

/-- The call `std::to_string(i)` for a non-negative `int`. -/
def to_string (i : Nat) : Str := Nat.toDigits 10 i

/-- The call `std::filesystem::path::filename()` on a POSIX path: the text
after the last `/` (empty when the path ends in `/`). -/
def filename : Str → Str
  | [] => []
  | c :: t => if '/' ∈ t then filename t else if c = '/' then t else c :: t

/-! ## Settings and the filesystem -/

/-- The record `biner::Settings`. -/
structure Settings where
  verbose : Bool
  directory : Str
  begin_marker : Str
  end_marker : Str

/-- The default-constructed `biner::Settings`. -/
def Settings.default : Settings where
  verbose := false
  directory := "./".toList
  begin_marker := "--!- BINER FILE BEGIN -!--".toList
  end_marker := "--!- BINER FILE END -!--".toList

/-- A filesystem state.  `key` resolves a path string to the identity of the
file it names (relative paths are resolved against the working directory);
`file` gives the bytes stored under a resolved path, `none` when nothing
exists there; `readable` and `writable` tell whether a stream opened on the
resolved path for reading, respectively for truncating write, is open. -/
structure Disk where
  key : Str → Str
  file : Str → Option Str
  readable : Str → Bool
  writable : Str → Bool

/-- The call `std::filesystem::exists(p)`. -/
def fs_exists (d : Disk) (p : Str) : Bool := (d.file (d.key p)).isSome

/-- Whether `std::ifstream file{p}` is open. -/
def is_open (d : Disk) (p : Str) : Bool := fs_exists d p && d.readable (d.key p)

/-- The bytes `ss << file.rdbuf()` reads from an open `std::ifstream` on `p`. -/
def read_all (d : Disk) (p : Str) : Str := (d.file (d.key p)).getD []

/-- The effect of constructing `std::ofstream of{p}`: the file is created or
truncated when it can be opened for writing. -/
def Disk.open_trunc (d : Disk) (p : Str) : Disk :=
  if d.writable (d.key p) then
    { d with file := fun k => if k = d.key p then some [] else d.file k }
  else d

/-- The effect of `of << data` on the stream opened on `p`: the bytes are
appended when the stream is open, and dropped otherwise. -/
def Disk.stream_write (d : Disk) (p data : Str) : Disk :=
  if d.writable (d.key p) then
    { d with file := fun k => if k = d.key p then some ((d.file k).getD [] ++ data) else d.file k }
  else d

/-- How a run ends: normal return, `std::exit(EXIT_FAILURE)` on a buffer
without marker data, or one of the exceptions. -/
inductive Status where
  | done
  | bundleMalformed
  | inputMissing
  | inputUnreadable
  | tooManyDuplicates
  | outOfRange
  deriving DecidableEq, Repr

/-! ## `biner::combine_files` -/

/-- The section `combine_files` appends for the path `it`. -/
def combine_section (st : Settings) (d : Disk) (it : Str) : Str :=
  (st.begin_marker ++ " ".toList ++ it ++ "\n".toList) ++ read_all d it
    ++ (st.end_marker ++ " ".toList ++ it ++ "\n".toList)

/-- The `for` loop of `combine_files`, `combined_data` being the accumulator. -/
def combine_loop (st : Settings) (d : Disk) : List Str → Str → Except Status Str
  | [], combined_data => .ok combined_data
  | it :: rest, combined_data =>
    if !fs_exists d it then .error .inputMissing
    else if !is_open d it then .error .inputUnreadable
    else combine_loop st d rest (combined_data ++ combine_section st d it)

/-- The function `biner::combine_files`. -/
def combine_files (st : Settings) (d : Disk) (files : List Str) : Except Status Str :=
  combine_loop st d files []

/-- Offset in the bundle at which the section of the `i`-th path starts: the
length of what `combine_files` has accumulated before it. -/
def section_offset (st : Settings) (d : Disk) (files : List Str) (i : Nat) : Nat :=
  ((files.take i).map (combine_section st d)).flatten.length

/-! ## `biner::separate_files` -/

/-- What `separate_files` has done so far: the disk, and the list of the
streams it has opened for writing, each with the bytes it sent to it, in
order. -/
structure World where
  disk : Disk
  log : List (Str × Str)

/-- The duplicate loop `while (i < 100000)`: `n` iterations are left when the
counter is `i`.  `none` means the counter reached `100000`. -/
def dup_loop (d : Disk) (path : Str) : Nat → Nat → Option Str
  | _, 0 => none
  | i, n + 1 =>
    if !fs_exists d (path ++ "_".toList ++ to_string i) then
      some (path ++ ("_".toList ++ to_string i))
    else dup_loop d path (i + 1) n

/-- Lines 120-138: the name the section is written under, `none` when the
source throws "Too many duplicate files". -/
def resolve_duplicate (d : Disk) (path : Str) : Option Str :=
  if fs_exists d path then dup_loop d path 1 99999 else some path

/-- The value of `fileNameBeginning` for a begin marker at `beginning`. -/
def file_name_beginning (st : Settings) (beginning : Nat) : Nat :=
  wrap (wrap (beginning + st.begin_marker.length) + 1)

/-- The value of `fileNameEnd`. -/
def file_name_end (st : Settings) (fileContents : Str) (beginning : Nat) : Nat :=
  find fileContents "\n".toList (file_name_beginning st beginning)

/-- The string `fileName` (line 113). -/
def section_file_name (st : Settings) (fileContents : Str) (beginning : Nat) : Option Str :=
  substr fileContents (file_name_beginning st beginning)
    (size_sub (file_name_end st fileContents beginning) (file_name_beginning st beginning))

/-- The argument of `of <<` (line 142). -/
def section_payload (st : Settings) (fileContents : Str) (beginning end_ : Nat) : Option Str :=
  substr fileContents (wrap (file_name_end st fileContents beginning + 1))
    (size_sub (size_sub end_ (file_name_end st fileContents beginning)) 1)

/-- The body of `if (end != std::string::npos)` (lines 111-144).  An error
carries the state reached when the exception is thrown. -/
def emit_section (st : Settings) (fileContents : Str) (beginning end_ : Nat) (w : World) :
    Except (Status × World) World :=
  match section_file_name st fileContents beginning with
  | none => .error (.outOfRange, w)
  | some fileName =>
    let path := filename (st.directory ++ fileName)
    match resolve_duplicate w.disk path with
    | none => .error (.tooManyDuplicates, w)
    | some path =>
      let opened := w.disk.open_trunc (st.directory ++ path)
      match section_payload st fileContents beginning end_ with
      | none => .error (.outOfRange, ⟨opened, w.log ++ [(st.directory ++ path, [])]⟩)
      | some payload =>
        .ok ⟨opened.stream_write (st.directory ++ path) payload,
             w.log ++ [(st.directory ++ path, payload)]⟩

/-- The loop `while (beginning != std::string::npos)` (lines 102-149).  Each
iteration uses one unit of fuel; `none` means the fuel ran out. -/
def separate_loop (st : Settings) : Nat → Str → Nat → World → Option (Status × World)
  | 0, _, _, _ => none
  | fuel + 1, fileContents, beginning, w =>
    if beginning = npos then some (.done, w)
    else
      let end_ := find fileContents st.end_marker beginning
      match (if end_ ≠ npos then emit_section st fileContents beginning end_ w else .ok w) with
      | .error r => some r
      | .ok w1 =>
        match erase fileContents beginning
            (wrap (wrap (size_sub end_ beginning + st.end_marker.length) + 1)) with
        | none => some (.outOfRange, w1)
        | some erased =>
          separate_loop st fuel erased (find erased st.begin_marker beginning) w1

/-- Lines 97-149: what `separate_files` does with one working buffer. -/
def separate_buffer (st : Settings) (fuel : Nat) (fileContents : Str) (w : World) :
    Option (Status × World) :=
  if find fileContents st.begin_marker 0 = npos ∨ find fileContents st.end_marker 0 = npos then
    some (.bundleMalformed, w)
  else separate_loop st fuel fileContents (find fileContents st.begin_marker 0) w

/-- Lines 74-95: the working buffer for the item `it`: the bytes of the file
it names when such a file exists, the item itself otherwise; `none` when the
file exists and cannot be opened. -/
def working_buffer (d : Disk) (it : Str) : Option Str :=
  if fs_exists d it then (if is_open d it then some (read_all d it) else none) else some it

/-- The function `biner::separate_files`. -/
def separate_files (st : Settings) (fuel : Nat) : List Str → World → Option (Status × World)
  | [], w => some (.done, w)
  | it :: rest, w =>
    match working_buffer w.disk it with
    | none => some (.inputUnreadable, w)
    | some fileContents =>
      match separate_buffer st fuel fileContents w with
      | some (.done, w1) => separate_files st fuel rest w1
      | r => r

/-- The status and the write log of a run. -/
def outcome (r : Option (Status × World)) : Option (Status × List (Str × Str)) :=
  r.map fun x => (x.1, x.2.log)

/-! ## `main`: the destination directory -/

/-- Lines 257-259 of `main` (the POSIX branch): `none` is the
`std::out_of_range` of `settings.directory.at(...)` on an empty string. -/
def normalise_directory (directory : Str) : Option Str :=
  match directory.get? (size_sub directory.length 1) with
  | none => none
  | some c => if c = '/' then some (directory ++ "/".toList) else some directory

/-! ## Example filesystems -/

/-- A disk on which paths are their own keys, holding the listed files, all
of them readable, and on which every path can be opened for writing. -/
def Disk.ofList (files : List (Str × Str)) : Disk where
  key := id
  file := fun k => (files.lookup k)
  readable := fun _ => true
  writable := fun _ => true

/-- Scenario S1: `a.txt` holds `hello\n`, `b.txt` holds `world`. -/
def disk_s1 : Disk :=
  Disk.ofList [("a.txt".toList, "hello\n".toList), ("b.txt".toList, "world".toList)]

/-- A disk holding `a.txt`, which exists and cannot be opened for reading,
and nothing else. -/
def disk_unreadable : Disk :=
  { Disk.ofList [("a.txt".toList, "x".toList)] with readable := fun _ => false }

/-- The initial state of a run on the disk `d`: nothing written yet. -/
def World.init (d : Disk) : World := ⟨d, []⟩

/-- The bytes stored under the path `p` when the run `r` has ended. -/
def stored (r : Option (Status × World)) (p : Str) : Option (Option Str) :=
  r.map fun x => x.2.disk.file (x.2.disk.key p)

/-- The default settings with the destination directory `out/`. -/
def settings_out : Settings := { Settings.default with directory := "out/".toList }

/-- The bundle of scenario S1. -/
def bundle_s1 : Str :=
  "--!- BINER FILE BEGIN -!-- a.txt\nhello\n--!- BINER FILE END -!-- a.txt\n".toList ++
    "--!- BINER FILE BEGIN -!-- b.txt\nworld--!- BINER FILE END -!-- b.txt\n".toList

/-- Scenario S3: the destination `out/a.txt` exists and holds `OLD`; the
working directory holds no `a.txt`. -/
def disk_s3 : Disk := Disk.ofList [("out/a.txt".toList, "OLD".toList)]

/-- A bundle with one section named `c.txt` and payload `new`. -/
def bundle_c : Str :=
  "--!- BINER FILE BEGIN -!-- c.txt\nnew--!- BINER FILE END -!-- c.txt\n".toList

/-- The destinations `out/c.txt` and `out/c.txt_1` exist. -/
def disk_c : Disk :=
  Disk.ofList [("out/c.txt".toList, "1".toList), ("out/c.txt_1".toList, "2".toList)]

/-- A bundle with two sections, both named `a.txt`, with payloads `first`
and `second`. -/
def bundle_twice : Str :=
  "--!- BINER FILE BEGIN -!-- a.txt\nfirst--!- BINER FILE END -!-- a.txt\n".toList ++
    "--!- BINER FILE BEGIN -!-- a.txt\nsecond--!- BINER FILE END -!-- a.txt\n".toList

/-- A bundle with one section whose marker line names `a/b/c.txt`. -/
def bundle_nested : Str :=
  "--!- BINER FILE BEGIN -!-- a/b/c.txt\nX--!- BINER FILE END -!-- a/b/c.txt\n".toList

/-- The state after writing `X` to `out/c.txt` on an empty disk. -/
def world_nested : World :=
  ⟨((Disk.ofList []).open_trunc "out/c.txt".toList).stream_write "out/c.txt".toList "X".toList,
    [("out/c.txt".toList, "X".toList)]⟩

/-! ## Framed sections, for stating what the separator recovers -/

/-- A framed section as it stands in a working buffer: the filename on the
begin-marker line, the payload, and `gap`, the text between the end marker
and the next begin marker (the rest of the end-marker line and whatever
follows it). -/
structure Frame where
  name : Str
  payload : Str
  gap : Str

/-- The text of a frame before its end marker: the begin-marker line and the
payload. -/
def Frame.lead (st : Settings) (f : Frame) : Str :=
  st.begin_marker ++ (' ' :: (f.name ++ ('\n' :: f.payload)))

/-- The text of a frame. -/
def Frame.render (st : Settings) (f : Frame) : Str :=
  f.lead st ++ (st.end_marker ++ f.gap)

/-- The text of a sequence of frames. -/
def render_frames (st : Settings) (frames : List Frame) : Str :=
  (frames.map (Frame.render st)).flatten

/-- The frame `combine_files` writes for a filename and its contents: the end
marker is followed by a space, the filename again and a newline. -/
def Frame.ofSection (name payload : Str) : Frame :=
  ⟨name, payload, ' ' :: (name ++ ['\n'])⟩

/-- The same frame with the text `t` placed after it. -/
def Frame.followed_by (f : Frame) (t : Str) : Frame :=
  { f with gap := f.gap ++ t }

/-- The frame can be told apart from what surrounds it: its filename holds no
newline, some character follows its end marker, the first end marker from its
start on is its own, and no begin marker starts in the text that stays after
the erase of line 147 (the gap without its first character), even when that
text is read together with `next`, the begin marker that follows, if any. -/
def Frame.wf (st : Settings) (f : Frame) (next : Str) : Prop :=
  '\n' ∉ f.name ∧ f.gap ≠ [] ∧
    (∀ k, k < (f.lead st).length →
      occursAt st.end_marker (f.lead st ++ st.end_marker) k = false) ∧
    (∀ k, k < (f.gap.drop 1).length →
      occursAt st.begin_marker (f.gap.drop 1 ++ next) k = false)

/-- Every frame of the sequence can be told apart from what surrounds it. -/
def frames_wf (st : Settings) : List Frame → Prop
  | [] => True
  | [f] => f.wf st []
  | f :: g :: rest => f.wf st st.begin_marker ∧ frames_wf st (g :: rest)

/-- What lines 117-144 do with a recovered filename and payload. -/
def store_section (st : Settings) (w : World) (fileName payload : Str) :
    Except (Status × World) World :=
  match resolve_duplicate w.disk (filename (st.directory ++ fileName)) with
  | none => .error (.tooManyDuplicates, w)
  | some path =>
    .ok ⟨(w.disk.open_trunc (st.directory ++ path)).stream_write (st.directory ++ path) payload,
         w.log ++ [(st.directory ++ path, payload)]⟩

/-- Lines 117-144 applied to a sequence of recovered filenames and payloads,
in order, up to the first failure. -/
def store_all (st : Settings) : World → List (Str × Str) → Status × World
  | w, [] => (.done, w)
  | w, s :: rest =>
    match store_section st w s.1 s.2 with
    | .error r => r
    | .ok w1 => store_all st w1 rest

/-- The section `combine_files` writes for a filename and its contents. -/
def section_text (st : Settings) (name payload : Str) : Str :=
  st.begin_marker ++ " ".toList ++ name ++ "\n".toList ++ payload
    ++ st.end_marker ++ " ".toList ++ name ++ "\n".toList

/-- The begin marker without its last two characters. -/
def text_overlap : Str := "--!- BINER FILE BEGIN -!".toList

/-- An empty disk on which `out/a.txt` cannot be opened for writing, and every
other path can. -/
def disk_readonly : Disk :=
  { Disk.ofList [] with writable := fun k => decide (k ≠ "out/a.txt".toList) }

/-- The end marker directly followed by the begin marker: both markers occur,
and the begin marker, at offset 24, has no end marker at or after it. -/
def buffer_unmatched : Str :=
  "--!- BINER FILE END -!----!- BINER FILE BEGIN -!--".toList

/-- A bundle cut off inside its second section; the name of its first file
has 23 characters. -/
def bundle_truncated : Str :=
  ("--!- BINER FILE BEGIN -!-- 1234567890123456789.txt\nhello\n".toList ++
    "--!- BINER FILE END -!-- 1234567890123456789.txt\n".toList) ++
    "--!- BINER FILE BEGIN -!-- b.txt\nwor".toList

/-- What is left of `bundle_truncated` once its first section is erased. -/
def rest_truncated : Str :=
  "1234567890123456789.txt\n--!- BINER FILE BEGIN -!-- b.txt\nwor".toList

/-- The state in which one pass through lines 111-144 ends, whether it ends
normally or by an exception. -/
def result_world : Except (Status × World) World → World
  | .ok w => w
  | .error r => r.2

/-- The write log `l1` continues `l0`, and every stream opened in between is
on `settings.directory` followed by a name that holds no `/`. -/
def opens_inside (st : Settings) (l0 l1 : List (Str × Str)) : Prop :=
  ∃ added, l1 = l0 ++ added ∧ ∀ e ∈ added, ∃ name, e.1 = st.directory ++ name ∧ '/' ∉ name

/-- A buffer whose begin-marker line has no newline before the end marker;
the first newline, at offset 62, comes after the end marker, at offset 32. -/
def buffer_late_newline : Str :=
  "--!- BINER FILE BEGIN -!-- a.txt--!- BINER FILE END -!-- a.txt\nSECRET".toList

/-- Settings with the markers `<<` and `<`: both are non-empty, hold no
newline and differ, and the end marker is a substring of the begin marker. -/
def settings_nested : Settings where
  verbose := false
  directory := "out/".toList
  begin_marker := "<<".toList
  end_marker := "<".toList

/-- A section whose end-marker line carries the text `trailer` between the
end marker and the newline that ends the line. -/
def section_with (st : Settings) (name payload trailer : Str) : Str :=
  st.begin_marker ++ " ".toList ++ name ++ "\n".toList ++ payload
    ++ st.end_marker ++ trailer ++ "\n".toList

/-- The frame of such a section. -/
def Frame.withTrailer (name payload trailer : Str) : Frame :=
  ⟨name, payload, trailer ++ ['\n']⟩

/-- A bundle whose marker line names `../../etc/passwd`. -/
def bundle_escape : Str :=
  "--!- BINER FILE BEGIN -!-- ../../etc/passwd\nX--!- BINER FILE END -!-- ../../etc/passwd\n".toList

theorem occursAt_nil_left (s : Str) (k : Nat) : occursAt [] s k = true := by
  simp [occursAt]

theorem occursAt_zero (pat s : Str) : occursAt pat s 0 = pat.isPrefixOf s := by
  simp [occursAt]

theorem occursAt_succ_cons (pat : Str) (c : Char) (t : Str) (k : Nat) :
    occursAt pat (c :: t) (k + 1) = occursAt pat t k := by
  simp [occursAt]

theorem occursAt_drop (pat s : Str) (n k : Nat) :
    occursAt pat (s.drop n) k = occursAt pat s (n + k) := by
  simp [occursAt, List.drop_drop, Nat.add_comm]

/-- The search either returns the first offset at which the pattern stands,
or `npos` when it stands nowhere. -/
theorem findAt_spec (pat : Str) (l : Str) (off : Nat) :
    (∃ n, n ≤ l.length ∧ findAt pat l off = off + n ∧ occursAt pat l n = true ∧
        ∀ k, k < n → occursAt pat l k = false) ∨
      (findAt pat l off = npos ∧ ∀ k, k ≤ l.length → occursAt pat l k = false) := by
  induction l generalizing off with
  | nil =>
    by_cases h : pat.isPrefixOf ([] : Str) = true
    · left
      exact ⟨0, Nat.le_refl _, by simp [findAt, h], by simpa [occursAt] using h,
        fun k hk => absurd hk (Nat.not_lt_zero k)⟩
    · right
      refine ⟨by simp [findAt, h], fun k _ => ?_⟩
      unfold occursAt
      rw [List.drop_nil]
      exact Bool.eq_false_iff.mpr h
  | cons c t ih =>
    by_cases h : pat.isPrefixOf (c :: t) = true
    · left
      exact ⟨0, Nat.zero_le _, by simp [findAt, h], by simpa [occursAt] using h,
        fun k hk => absurd hk (Nat.not_lt_zero k)⟩
    · have h0 : occursAt pat (c :: t) 0 = false := Bool.eq_false_iff.mpr h
      rcases ih (off + 1) with ⟨n, hn, hf, hat, hbefore⟩ | ⟨hf, hnone⟩
      · left
        refine ⟨n + 1, by simpa using hn, ?_, by simpa [occursAt_succ_cons] using hat, ?_⟩
        · simp only [findAt, h, if_false, Bool.false_eq_true]
          rw [hf]; omega
        · intro k hk
          cases k with
          | zero => exact h0
          | succ k => rw [occursAt_succ_cons]; exact hbefore k (by omega)
      · right
        refine ⟨by simp only [findAt, h, if_false, Bool.false_eq_true]; exact hf, ?_⟩
        intro k hk
        cases k with
        | zero => exact h0
        | succ k => rw [occursAt_succ_cons]; exact hnone k (by simpa using hk)

theorem findAt_first (pat l : Str) (off n : Nat) (hn : n ≤ l.length)
    (hat : occursAt pat l n = true) (hbefore : ∀ k, k < n → occursAt pat l k = false) :
    findAt pat l off = off + n := by
  rcases findAt_spec pat l off with ⟨m, _, hf, hm, hmb⟩ | ⟨_, hnone⟩
  · rcases Nat.lt_trichotomy m n with hlt | heq | hgt
    · rw [hbefore m hlt] at hm; cases hm
    · rw [hf, heq]
    · rw [hmb n hgt] at hat; cases hat
  · rw [hnone n hn] at hat; cases hat

theorem findAt_none (pat l : Str) (off : Nat)
    (hnone : ∀ k, k ≤ l.length → occursAt pat l k = false) : findAt pat l off = npos := by
  rcases findAt_spec pat l off with ⟨m, hm, _, hat, _⟩ | ⟨hf, _⟩
  · rw [hnone m hm] at hat; cases hat
  · exact hf

/-- The pattern is first met `n` characters after `pos`. -/
theorem find_first (s pat : Str) (pos n : Nat) (hn : pos + n ≤ s.length)
    (hat : occursAt pat s (pos + n) = true)
    (hbefore : ∀ k, k < n → occursAt pat s (pos + k) = false) :
    find s pat pos = pos + n := by
  have hpos : ¬ s.length < pos := by omega
  simp only [find, hpos, if_false]
  apply findAt_first
  · simp only [List.length_drop]; omega
  · rw [occursAt_drop]; exact hat
  · intro k hk; rw [occursAt_drop]; exact hbefore k hk

/-- The pattern stands nowhere from `pos` on. -/
theorem find_none (s pat : Str) (pos : Nat)
    (hnone : ∀ k, pos ≤ k → k ≤ s.length → occursAt pat s k = false) :
    find s pat pos = npos := by
  by_cases hpos : s.length < pos
  · simp [find, hpos]
  · simp only [find, hpos, if_false]
    apply findAt_none
    intro k hk
    rw [occursAt_drop]
    simp only [List.length_drop] at hk
    exact hnone _ (by omega) (by omega)

/-- What `find` returns: an offset in range at which the pattern stands and
before which (from `pos` on) it does not, or `npos`. -/
theorem find_spec (s pat : Str) (pos : Nat) :
    (∃ n, pos + n ≤ s.length ∧ find s pat pos = pos + n ∧ occursAt pat s (pos + n) = true ∧
        ∀ k, k < n → occursAt pat s (pos + k) = false) ∨
      (find s pat pos = npos ∧
        ∀ k, pos ≤ k → k ≤ s.length → occursAt pat s k = false) := by
  by_cases hpos : s.length < pos
  · right
    exact ⟨by simp [find, hpos], fun k h1 h2 => by omega⟩
  · rcases findAt_spec pat (s.drop pos) pos with ⟨n, hn, hf, hat, hb⟩ | ⟨hf, hnone⟩
    · left
      simp only [List.length_drop] at hn
      refine ⟨n, by omega, by simp only [find, hpos, if_false]; exact hf, ?_, ?_⟩
      · rw [← occursAt_drop]; exact hat
      · intro k hk; rw [← occursAt_drop]; exact hb k hk
    · right
      refine ⟨by simp only [find, hpos, if_false]; exact hf, ?_⟩
      intro k h1 h2
      have := hnone (k - pos) (by simp only [List.length_drop]; omega)
      rw [occursAt_drop] at this
      rwa [show pos + (k - pos) = k by omega] at this

theorem substring_of_occursAt (pat s : Str) (k : Nat) (h : occursAt pat s k = true) :
    pat <:+: s := by
  obtain ⟨t, ht⟩ := List.isPrefixOf_iff_prefix.mp h
  exact ⟨s.take k, t, by rw [List.append_assoc, ht, List.take_append_drop]⟩

theorem occursAt_of_substring (pat s : Str) (h : pat <:+: s) :
    ∃ k, k ≤ s.length ∧ occursAt pat s k = true := by
  obtain ⟨a, b, hab⟩ := h
  refine ⟨a.length, ?_, ?_⟩
  · rw [← hab]; simp only [List.length_append]; omega
  · unfold occursAt
    rw [← hab, List.append_assoc, List.drop_left]
    exact List.isPrefixOf_iff_prefix.mpr ⟨b, rfl⟩

/-- On a string shorter than `npos`, `find` from offset `0` returns `npos`
exactly when the pattern does not occur. -/
theorem find_zero_eq_npos_iff (s pat : Str) (hlen : s.length < npos) :
    find s pat 0 = npos ↔ ¬ pat <:+: s := by
  rcases find_spec s pat 0 with ⟨n, hn, hf, hat, _⟩ | ⟨hf, hnone⟩
  · constructor
    · intro h
      rw [hf] at h
      omega
    · intro h
      exact absurd (substring_of_occursAt pat s _ hat) h
  · constructor
    · intro _ hin
      obtain ⟨k, hk, hocc⟩ := occursAt_of_substring pat s hin
      rw [hnone k (Nat.zero_le _) hk] at hocc
      cases hocc
    · intro _
      exact hf

theorem find_zero_npos_of_absent (s pat : Str) (h : ¬ pat <:+: s) :
    find s pat 0 = npos := by
  apply find_none
  intro k _ _
  cases hk : occursAt pat s k with
  | false => rfl
  | true => exact absurd (substring_of_occursAt pat s k hk) h

/-! ## `combine_files` -/

theorem combine_section_eq (st : Settings) (d : Disk) (path : Str) :
    combine_section st d path =
      st.begin_marker ++ " ".toList ++ path ++ "\n".toList ++ read_all d path
        ++ st.end_marker ++ " ".toList ++ path ++ "\n".toList := by
  simp [combine_section, List.append_assoc]

theorem combine_section_length_pos (st : Settings) (d : Disk) (path : Str) :
    0 < (combine_section st d path).length := by
  simp [combine_section]

theorem combine_loop_ok (st : Settings) (d : Disk) (files : List Str) (acc : Str)
    (h : ∀ p ∈ files, is_open d p = true) :
    combine_loop st d files acc = .ok (acc ++ (files.map (combine_section st d)).flatten) := by
  induction files generalizing acc with
  | nil => simp [combine_loop]
  | cons it rest ih =>
    have hopen : is_open d it = true := h it (List.mem_cons_self _ _)
    have hex : fs_exists d it = true := by
      simp only [is_open, Bool.and_eq_true] at hopen
      exact hopen.1
    simp only [combine_loop, hex, hopen, Bool.not_true, Bool.false_eq_true, if_false]
    rw [ih _ (fun p hp => h p (List.mem_cons_of_mem _ hp))]
    simp [List.append_assoc]

theorem section_offset_succ (st : Settings) (d : Disk) (files : List Str) (i : Nat) (p : Str)
    (hp : files[i]? = some p) :
    section_offset st d files (i + 1) =
      section_offset st d files i + (combine_section st d p).length := by
  simp [section_offset, List.take_succ, hp]

theorem section_offset_lt (st : Settings) (d : Disk) (files : List Str) (i j : Nat)
    (hij : i < j) (hj : j ≤ files.length) :
    section_offset st d files i < section_offset st d files j := by
  induction j with
  | zero => omega
  | succ j ih =>
    have hjlt : j < files.length := by omega
    have hget : files[j]? = some files[j] := List.getElem?_eq_getElem hjlt
    rw [section_offset_succ st d files j _ hget]
    have hpos := combine_section_length_pos st d files[j]
    rcases Nat.lt_or_ge i j with hlt | hge
    · have := ih hlt (by omega)
      omega
    · have : i = j := by omega
      subst this
      omega

theorem section_at_offset (st : Settings) (d : Disk) (files : List Str) (i : Nat) (p : Str)
    (hp : files[i]? = some p) :
    combine_section st d p <+:
      ((files.map (combine_section st d)).flatten).drop (section_offset st d files i) := by
  have hi : i < files.length := by
    rcases Nat.lt_or_ge i files.length with h | h
    · exact h
    · rw [List.getElem?_eq_none h] at hp; cases hp
  have hsplit : files = files.take i ++ p :: files.drop (i + 1) := by
    have h1 : files.drop i = p :: files.drop (i + 1) := by
      rw [List.drop_eq_getElem_cons hi]
      rw [List.getElem?_eq_getElem hi] at hp
      cases hp
      rfl
    rw [← h1, List.take_append_drop]
  have hflat : (files.map (combine_section st d)).flatten =
      ((files.take i).map (combine_section st d)).flatten ++
        (combine_section st d p ++ ((files.drop (i + 1)).map (combine_section st d)).flatten) := by
    conv_lhs => rw [hsplit]
    simp
  rw [hflat]
  unfold section_offset
  rw [List.drop_left]
  exact ⟨_, rfl⟩

/-- C1: given paths that all name existing, readable files, `combine_files`
returns the concatenation, in list order, of
`begin_marker + " " + path + "\n" + contents + end_marker + " " + path + "\n"`
with the path text as supplied; the empty list gives the empty string; each
section stands in the bundle at its offset, and these offsets are strictly
increasing. -/
theorem combine_files_concat (st : Settings) (d : Disk) (files : List Str)
    (h : ∀ p ∈ files, is_open d p = true) :
    combine_files st d files = .ok
        (files.map fun path =>
          st.begin_marker ++ " ".toList ++ path ++ "\n".toList ++ read_all d path
            ++ st.end_marker ++ " ".toList ++ path ++ "\n".toList).flatten ∧
      combine_files st d [] = .ok [] ∧
      (∀ bundle, combine_files st d files = .ok bundle →
        ∀ i path, files[i]? = some path →
          (st.begin_marker ++ " ".toList ++ path ++ "\n".toList ++ read_all d path
            ++ st.end_marker ++ " ".toList ++ path ++ "\n".toList) <+:
              bundle.drop (section_offset st d files i)) ∧
      (∀ i j, i < j → j < files.length →
        section_offset st d files i < section_offset st d files j) := by
  have hok : combine_files st d files = .ok (files.map (combine_section st d)).flatten := by
    unfold combine_files
    rw [combine_loop_ok st d files [] h]
    simp
  have hfun : (fun path =>
      st.begin_marker ++ " ".toList ++ path ++ "\n".toList ++ read_all d path
        ++ st.end_marker ++ " ".toList ++ path ++ "\n".toList) = combine_section st d := by
    funext path
    exact (combine_section_eq st d path).symm
  refine ⟨by rw [hfun]; exact hok, rfl, ?_, ?_⟩
  · intro bundle hb i path hpath
    rw [hok] at hb
    cases hb
    rw [← combine_section_eq]
    exact section_at_offset st d files i path hpath
  · intro i j hij hj
    exact section_offset_lt st d files i j hij (Nat.le_of_lt hj)

/-- Witness for C1 on scenario S1 of the specification. -/
theorem combine_files_concat_witness :
    (∀ p ∈ ["a.txt".toList, "b.txt".toList], is_open disk_s1 p = true) ∧
      combine_files Settings.default disk_s1 ["a.txt".toList, "b.txt".toList] = .ok
        ("--!- BINER FILE BEGIN -!-- a.txt\nhello\n--!- BINER FILE END -!-- a.txt\n".toList ++
          "--!- BINER FILE BEGIN -!-- b.txt\nworld--!- BINER FILE END -!-- b.txt\n".toList) :=
  ⟨by decide,
    (combine_files_concat Settings.default disk_s1 ["a.txt".toList, "b.txt".toList]
      (by decide)).1.trans (congrArg Except.ok (by decide))⟩

theorem combine_loop_missing (st : Settings) (d : Disk) (files : List Str) (acc : Str)
    (h : ∃ p ∈ files, fs_exists d p = false) :
    ∃ pre p post, files = pre ++ p :: post ∧ (∀ q ∈ pre, fs_exists d q = true) ∧
      fs_exists d p = false ∧
      combine_loop st d files acc =
        .error (if pre.all (is_open d) then .inputMissing else .inputUnreadable) := by
  induction files generalizing acc with
  | nil =>
    obtain ⟨p, hp, _⟩ := h
    cases hp
  | cons it rest ih =>
    cases hex : fs_exists d it with
    | false =>
      refine ⟨[], it, rest, rfl, ?_, hex, ?_⟩
      · intro q hq
        exact absurd hq (List.not_mem_nil q)
      · simp [combine_loop, hex]
    | true =>
      have hrest : ∃ p ∈ rest, fs_exists d p = false := by
        obtain ⟨p, hp, hpe⟩ := h
        rcases List.mem_cons.mp hp with rfl | hin
        · rw [hex] at hpe; cases hpe
        · exact ⟨p, hin, hpe⟩
      obtain ⟨pre, p, post, hsplit, hpre, hp, hres⟩ :=
        ih (acc ++ combine_section st d it) hrest
      refine ⟨it :: pre, p, post, by rw [hsplit]; rfl, ?_, hp, ?_⟩
      · intro q hq
        rcases List.mem_cons.mp hq with rfl | hin
        · exact hex
        · exact hpre q hin
      · cases hop : is_open d it with
        | false => simp [combine_loop, hex, hop]
        | true => simp [combine_loop, hex, hop, hres]

/-- C7 (as stated, refuted): with `a.txt` existing but unreadable and `b.txt`
missing, `combine_files` on `[a.txt, b.txt]` fails with `InputUnreadable`,
not with `InputMissing`. -/
theorem combine_files_missing_counterexample :
    fs_exists disk_unreadable "b.txt".toList = false ∧
      combine_files Settings.default disk_unreadable ["a.txt".toList, "b.txt".toList]
        = .error .inputUnreadable ∧
      combine_files Settings.default disk_unreadable ["a.txt".toList, "b.txt".toList]
        ≠ .error .inputMissing := by
  refine ⟨by decide, rfl, ?_⟩
  intro h
  have h2 : (Except.error Status.inputUnreadable : Except Status Str)
      = .error .inputMissing := h
  cases h2

/-- C7 (amended): when some path of the list does not exist, `combine_files`
fails and returns no bundle, not even the sections of the files before the
bad path.  With `p` the first missing path, the failure is `InputMissing`
when every path before `p` can be opened, and `InputUnreadable` (raised at
the first path that exists but cannot be opened) otherwise. -/
theorem combine_files_missing (st : Settings) (d : Disk) (files : List Str)
    (h : ∃ p ∈ files, fs_exists d p = false) :
    (∀ bundle, combine_files st d files ≠ .ok bundle) ∧
      ∃ pre p post, files = pre ++ p :: post ∧ (∀ q ∈ pre, fs_exists d q = true) ∧
        fs_exists d p = false ∧
        combine_files st d files =
          .error (if pre.all (is_open d) then .inputMissing else .inputUnreadable) := by
  obtain ⟨pre, p, post, hsplit, hpre, hp, hres⟩ := combine_loop_missing st d files [] h
  refine ⟨?_, pre, p, post, hsplit, hpre, hp, hres⟩
  intro bundle hb
  unfold combine_files at hb
  rw [hres] at hb
  cases hb

/-- Witness for C7 (amended): on the disk of scenario S1 the list
`[a.txt, c.txt]` has a missing path and yields no bundle. -/
theorem combine_files_missing_witness :
    (∃ p ∈ ["a.txt".toList, "c.txt".toList], fs_exists disk_s1 p = false) ∧
      ∀ bundle, combine_files Settings.default disk_s1 ["a.txt".toList, "c.txt".toList]
        ≠ .ok bundle :=
  ⟨⟨"c.txt".toList, by decide, by decide⟩,
    (combine_files_missing Settings.default disk_s1 ["a.txt".toList, "c.txt".toList]
      ⟨"c.txt".toList, by decide, by decide⟩).1⟩

/-! ## `main`: the destination directory -/

/-- C10 (code at the failing input): for the directory `out`, given without
a trailing separator, the stored directory is still `out`, which does not end
with `/`; the test of line 258 appends `/` only to a string that already ends
with one, as for `out/`. -/
theorem normalise_directory_keeps_missing_separator :
    normalise_directory "out".toList = some "out".toList ∧
      "out".toList.getLast? ≠ some '/' ∧
      normalise_directory "out/".toList = some "out//".toList := by
  decide

/-! ## `separate_files`: validation -/

theorem emit_section_error_status (st : Settings) (buf : Str) (b e : Nat) (w : World)
    (s : Status) (w1 : World) (h : emit_section st buf b e w = .error (s, w1)) :
    s = .outOfRange ∨ s = .tooManyDuplicates := by
  unfold emit_section at h
  split at h
  · cases h; exact Or.inl rfl
  · dsimp only at h
    split at h
    · cases h; exact Or.inr rfl
    · split at h
      · cases h; exact Or.inl rfl
      · cases h

theorem separate_loop_not_malformed (st : Settings) (fuel : Nat) (buf : Str) (b : Nat)
    (w w1 : World) : separate_loop st fuel buf b w ≠ some (.bundleMalformed, w1) := by
  induction fuel generalizing buf b w with
  | zero => simp [separate_loop]
  | succ fuel ih =>
    unfold separate_loop
    split
    · intro h; cases h
    · dsimp only
      split
      · rename_i r hr
        intro h
        cases h
        split at hr
        · rcases emit_section_error_status _ _ _ _ _ _ _ hr with h | h <;> cases h
        · cases hr
      · split
        · intro h; cases h
        · exact ih _ _ _

/-- C4: a working buffer that lacks the begin marker or lacks the end marker
makes `separate_files` stop with `BundleMalformed` without any write, for the
whole invocation; a buffer that holds at least one occurrence of each marker
passes the check and enters the scan loop, which never reports
`BundleMalformed`. -/
theorem separate_buffer_validation (st : Settings) (fuel : Nat) (fileContents : Str)
    (w : World) (hlen : fileContents.length < npos) :
    ((¬ st.begin_marker <:+: fileContents ∨ ¬ st.end_marker <:+: fileContents) →
        separate_buffer st fuel fileContents w = some (.bundleMalformed, w) ∧
        ∀ it rest, working_buffer w.disk it = some fileContents →
          separate_files st fuel (it :: rest) w = some (.bundleMalformed, w)) ∧
      ((st.begin_marker <:+: fileContents ∧ st.end_marker <:+: fileContents) →
        separate_buffer st fuel fileContents w =
            separate_loop st fuel fileContents (find fileContents st.begin_marker 0) w ∧
          ∀ w1, separate_buffer st fuel fileContents w ≠ some (.bundleMalformed, w1)) := by
  constructor
  · intro h
    have hcheck : find fileContents st.begin_marker 0 = npos ∨
        find fileContents st.end_marker 0 = npos := by
      rcases h with h | h
      · exact Or.inl (find_zero_npos_of_absent _ _ h)
      · exact Or.inr (find_zero_npos_of_absent _ _ h)
    have hbuf : separate_buffer st fuel fileContents w = some (.bundleMalformed, w) := by
      simp only [separate_buffer, hcheck, if_true]
    refine ⟨hbuf, ?_⟩
    intro it rest hit
    simp only [separate_files, hit, hbuf]
  · intro h
    have hb : ¬ find fileContents st.begin_marker 0 = npos := by
      rw [find_zero_eq_npos_iff _ _ hlen]; exact fun hn => hn h.1
    have he : ¬ find fileContents st.end_marker 0 = npos := by
      rw [find_zero_eq_npos_iff _ _ hlen]; exact fun hn => hn h.2
    have hbuf : separate_buffer st fuel fileContents w =
        separate_loop st fuel fileContents (find fileContents st.begin_marker 0) w := by
      simp only [separate_buffer, hb, he, or_self, if_false]
    refine ⟨hbuf, ?_⟩
    intro w1
    rw [hbuf]
    exact separate_loop_not_malformed _ _ _ _ _ _

/-- Witness for C4 on scenario S4: the bundle string `no markers here` is
rejected and nothing is written. -/
theorem separate_buffer_validation_witness :
    "no markers here".toList.length < npos ∧
      separate_buffer Settings.default 10 "no markers here".toList (World.init disk_s1)
        = some (.bundleMalformed, World.init disk_s1) :=
  ⟨by decide,
    ((separate_buffer_validation Settings.default 10 "no markers here".toList
      (World.init disk_s1) (by decide)).1
        (Or.inl (by
          intro h
          obtain ⟨k, hk, hocc⟩ := occursAt_of_substring _ _ h
          revert hocc
          have : ∀ k, k ≤ "no markers here".toList.length →
              occursAt Settings.default.begin_marker "no markers here".toList k = false := by
            decide
          rw [this k hk]
          exact Bool.noConfusion))).1⟩

/-! ## `separate_files`: the collision check -/

set_option maxRecDepth 1000000 in
/-- C3 (code at the failing input, scenario S3): `out/a.txt` holds `OLD`
before the call; separating the bundle of S1 into `out/` opens `out/a.txt`
itself and leaves `hello\n` in it, and no `out/a.txt_1` is created.  Line 120
asks whether the bare name `a.txt` exists, not `out/a.txt`. -/
theorem separate_files_overwrites_destination :
    disk_s3.file (disk_s3.key "out/a.txt".toList) = some "OLD".toList ∧
      outcome (separate_files settings_out 10 [bundle_s1] (World.init disk_s3)) =
        some (.done, [("out/a.txt".toList, "hello\n".toList),
          ("out/b.txt".toList, "world".toList)]) ∧
      stored (separate_files settings_out 10 [bundle_s1] (World.init disk_s3))
        "out/a.txt".toList = some (some "hello\n".toList) ∧
      stored (separate_files settings_out 10 [bundle_s1] (World.init disk_s3))
        "out/a.txt_1".toList = some none := by
  decide

set_option maxRecDepth 1000000 in
/-- C5 (code at the failing input): the destinations `out/c.txt` and
`out/c.txt_1` exist; the section `c.txt` is written to `out/c.txt`, not to
`out/c.txt_2`.  Conversely, when only the bare name `a.txt` exists in the
working directory and `out/` is empty, the section goes to `out/a.txt_1`. -/
theorem separate_files_suffix_ignores_destination :
    fs_exists disk_c "out/c.txt".toList = true ∧
      fs_exists disk_c "out/c.txt_1".toList = true ∧
      fs_exists disk_c "out/c.txt_2".toList = false ∧
      outcome (separate_files settings_out 10 [bundle_c] (World.init disk_c)) =
        some (.done, [("out/c.txt".toList, "new".toList)]) ∧
      outcome (separate_files settings_out 10 [bundle_s1] (World.init disk_s1)) =
        some (.done, [("out/a.txt_1".toList, "hello\n".toList),
          ("out/b.txt_1".toList, "world".toList)]) := by
  decide

set_option maxRecDepth 1000000 in
/-- C9 (code at the failing input): two sections named `a.txt` separated into
the empty directory `out/` are written in buffer order, but both to
`out/a.txt`: the later one gets no collision suffix and its payload replaces
the earlier one. -/
theorem separate_files_same_basename_twice :
    outcome (separate_files settings_out 10 [bundle_twice] (World.init (Disk.ofList []))) =
        some (.done, [("out/a.txt".toList, "first".toList),
          ("out/a.txt".toList, "second".toList)]) ∧
      stored (separate_files settings_out 10 [bundle_twice] (World.init (Disk.ofList [])))
        "out/a.txt".toList = some (some "second".toList) ∧
      stored (separate_files settings_out 10 [bundle_twice] (World.init (Disk.ofList [])))
        "out/a.txt_1".toList = some none := by
  decide

/-! ## `filename` and the duplicate loop -/

theorem filename_not_mem (p : Str) : '/' ∉ filename p := by
  induction p with
  | nil => simp [filename]
  | cons c t ih =>
    unfold filename
    split
    · exact ih
    · rename_i ht
      split
      · exact ht
      · rename_i hc
        intro hmem
        rcases List.mem_cons.mp hmem with h | h
        · exact hc h.symm
        · exact ht h

theorem filename_append_of_mem (d f : Str) (h : '/' ∈ f) : filename (d ++ f) = filename f := by
  induction d with
  | nil => rfl
  | cons c d ih =>
    have hmem : '/' ∈ d ++ f := List.mem_append_right _ h
    rw [List.cons_append]
    conv_lhs => unfold filename
    simp only [hmem, if_true]
    exact ih

theorem filename_split (f : Str) (h : '/' ∈ f) : ∃ dirs, f = dirs ++ '/' :: filename f := by
  induction f with
  | nil => cases h
  | cons c t ih =>
    by_cases ht : '/' ∈ t
    · obtain ⟨dirs, hd⟩ := ih ht
      refine ⟨c :: dirs, ?_⟩
      have hf : filename (c :: t) = filename t := by
        conv_lhs => unfold filename
        simp only [ht, if_true]
      rw [hf, List.cons_append, ← hd]
    · have hc : c = '/' := by
        rcases List.mem_cons.mp h with h | h
        · exact h.symm
        · exact absurd h ht
      refine ⟨[], ?_⟩
      have hf : filename (c :: t) = t := by
        conv_lhs => unfold filename
        simp only [ht, hc, if_true, if_false]
      rw [hf, hc]
      rfl

theorem toDigitsCore_not_mem (fuel n : Nat) (ds : List Char) (h : '/' ∉ ds) :
    '/' ∉ Nat.toDigitsCore 10 fuel n ds := by
  induction fuel generalizing n ds with
  | zero => simpa [Nat.toDigitsCore] using h
  | succ fuel ih =>
    have hd : '/' ∉ Nat.digitChar (n % 10) :: ds := by
      intro hm
      rcases List.mem_cons.mp hm with hc | hc
      · have hlt : n % 10 < 10 := Nat.mod_lt _ (by decide)
        revert hc
        generalize n % 10 = m at hlt
        interval_cases m <;> decide
      · exact h hc
    unfold Nat.toDigitsCore
    dsimp only
    split
    · exact hd
    · exact ih _ _ hd

theorem to_string_not_mem (i : Nat) : '/' ∉ to_string i := by
  unfold to_string Nat.toDigits
  exact toDigitsCore_not_mem _ _ _ (List.not_mem_nil _)

/-- The duplicate loop returns the name with the first free counter from
`i` on, all smaller counters being taken. -/
theorem dup_loop_some (d : Disk) (path : Str) (i n : Nat) (r : Str)
    (h : dup_loop d path i n = some r) :
    ∃ k, i ≤ k ∧ k < i + n ∧ r = path ++ ("_".toList ++ to_string k) ∧
      fs_exists d (path ++ "_".toList ++ to_string k) = false ∧
      ∀ j, i ≤ j → j < k → fs_exists d (path ++ "_".toList ++ to_string j) = true := by
  induction n generalizing i with
  | zero => simp [dup_loop] at h
  | succ n ih =>
    unfold dup_loop at h
    cases hex : fs_exists d (path ++ "_".toList ++ to_string i) with
    | false =>
      simp only [hex, Bool.not_false, if_true, Option.some.injEq] at h
      exact ⟨i, Nat.le_refl _, by omega, h.symm, hex, fun j h1 h2 => by omega⟩
    | true =>
      simp only [hex, Bool.not_true, Bool.false_eq_true, if_false] at h
      obtain ⟨k, hk1, hk2, hr, hfree, hbelow⟩ := ih (i + 1) h
      refine ⟨k, by omega, by omega, hr, hfree, ?_⟩
      intro j h1 h2
      rcases Nat.eq_or_lt_of_le h1 with heq | hlt
      · rw [← heq]; exact hex
      · exact hbelow j hlt h2

/-- The duplicate loop gives up exactly when every counter is taken. -/
theorem dup_loop_none (d : Disk) (path : Str) (i n : Nat)
    (h : ∀ j, i ≤ j → j < i + n → fs_exists d (path ++ "_".toList ++ to_string j) = true) :
    dup_loop d path i n = none := by
  induction n generalizing i with
  | zero => rfl
  | succ n ih =>
    unfold dup_loop
    simp only [h i (Nat.le_refl _) (by omega), Bool.not_true, Bool.false_eq_true, if_false]
    exact ih (i + 1) (fun j h1 h2 => h j (by omega) (by omega))

/-- The name chosen by lines 120-138 is the candidate itself when it is
free, and otherwise the candidate followed by `_k` for a counter `k` in
`1..99999`. -/
theorem resolve_duplicate_some (d : Disk) (path r : Str)
    (h : resolve_duplicate d path = some r) :
    ∃ suffix, r = path ++ suffix ∧
      (suffix = [] ∨ ∃ k, 1 ≤ k ∧ k < 100000 ∧ suffix = "_".toList ++ to_string k) ∧
      (fs_exists d path = false → suffix = []) := by
  unfold resolve_duplicate at h
  cases hex : fs_exists d path with
  | false =>
    simp only [hex, Bool.false_eq_true, if_false, Option.some.injEq] at h
    exact ⟨[], by simp [h], Or.inl rfl, fun _ => rfl⟩
  | true =>
    simp only [hex, if_true] at h
    obtain ⟨k, hk1, hk2, hr, _, _⟩ := dup_loop_some d path 1 99999 r h
    exact ⟨_, hr, Or.inr ⟨k, hk1, by omega, rfl⟩, fun hc => by cases hc⟩

/-! ## `separate_files`: basename collapse -/

/-- C6: a section whose marker-line filename has directory components is
written to `settings.directory` followed by the final path component only
(followed by the collision suffix `_k` when line 120 finds the name taken):
the name after the directory contains no `/`, so no directory component of
the marker line is kept. -/
theorem emit_section_basename (st : Settings) (fileContents : Str) (beginning end_ : Nat)
    (w w1 : World) (fileName : Str)
    (hname : section_file_name st fileContents beginning = some fileName)
    (hslash : '/' ∈ fileName)
    (hemit : emit_section st fileContents beginning end_ w = .ok w1) :
    ∃ dirs base suffix payload,
      fileName = dirs ++ '/' :: base ∧ '/' ∉ base ∧
      section_payload st fileContents beginning end_ = some payload ∧
      w1.log = w.log ++ [(st.directory ++ (base ++ suffix), payload)] ∧
      w1.disk = (w.disk.open_trunc (st.directory ++ (base ++ suffix))).stream_write
        (st.directory ++ (base ++ suffix)) payload ∧
      (suffix = [] ∨ ∃ k, 1 ≤ k ∧ k < 100000 ∧ suffix = "_".toList ++ to_string k) ∧
      (fs_exists w.disk base = false → suffix = []) ∧
      '/' ∉ base ++ suffix := by
  obtain ⟨dirs, hdirs⟩ := filename_split fileName hslash
  have hbase : '/' ∉ filename fileName := filename_not_mem fileName
  unfold emit_section at hemit
  rw [hname] at hemit
  dsimp only at hemit
  rw [filename_append_of_mem _ _ hslash] at hemit
  split at hemit
  · cases hemit
  · rename_i path hres
    obtain ⟨suffix, hpath, hshape, hfree⟩ := resolve_duplicate_some _ _ _ hres
    split at hemit
    · cases hemit
    · rename_i payload hpay
      cases hemit
      subst hpath
      refine ⟨dirs, filename fileName, suffix, payload, hdirs, hbase, hpay, rfl, rfl,
        hshape, hfree, ?_⟩
      intro hmem
      rcases List.mem_append.mp hmem with h | h
      · exact hbase h
      · rcases hshape with hs | ⟨k, _, _, hs⟩
        · rw [hs] at h; cases h
        · rw [hs] at h
          rcases List.mem_append.mp h with h | h
          · revert h; decide
          · exact to_string_not_mem k h

set_option maxRecDepth 1000000 in
/-- Witness for C6: the section named `a/b/c.txt`, separated into `out/` on
an empty disk, is written to `out/c.txt`. -/
theorem emit_section_basename_witness :
    section_file_name settings_out bundle_nested 0 = some "a/b/c.txt".toList ∧
      '/' ∈ "a/b/c.txt".toList ∧
      emit_section settings_out bundle_nested 0 (find bundle_nested settings_out.end_marker 0)
        (World.init (Disk.ofList [])) = .ok world_nested ∧
      ∃ dirs base suffix payload,
        "a/b/c.txt".toList = dirs ++ '/' :: base ∧ '/' ∉ base ∧
        section_payload settings_out bundle_nested 0
          (find bundle_nested settings_out.end_marker 0) = some payload ∧
        world_nested.log = (World.init (Disk.ofList [])).log ++
          [(settings_out.directory ++ (base ++ suffix), payload)] ∧
        world_nested.disk = ((World.init (Disk.ofList [])).disk.open_trunc
          (settings_out.directory ++ (base ++ suffix))).stream_write
            (settings_out.directory ++ (base ++ suffix)) payload ∧
        (suffix = [] ∨ ∃ k, 1 ≤ k ∧ k < 100000 ∧ suffix = "_".toList ++ to_string k) ∧
        (fs_exists (World.init (Disk.ofList [])).disk base = false → suffix = []) ∧
        '/' ∉ base ++ suffix :=
  ⟨by decide, by decide, by rfl,
    emit_section_basename settings_out bundle_nested 0
      (find bundle_nested settings_out.end_marker 0) (World.init (Disk.ofList []))
      world_nested "a/b/c.txt".toList (by decide) (by decide) (by rfl)⟩

/-! ## `size_t` arithmetic and occurrences in concatenations -/

theorem wrap_of_lt (n : Nat) (h : n < npos) : wrap n = n := by
  unfold wrap; unfold npos at h; omega

theorem size_sub_of_le (a b : Nat) (hab : b ≤ a) (ha : a < npos) : size_sub a b = a - b := by
  unfold size_sub; unfold npos at ha; omega

theorem isPrefixOf_append_right (pat l r : Str) (h : pat.length ≤ l.length) :
    pat.isPrefixOf (l ++ r) = pat.isPrefixOf l := by
  induction pat generalizing l with
  | nil => simp
  | cons c pat ih =>
    cases l with
    | nil => simp at h
    | cons x l =>
      have hl : pat.length ≤ l.length := by simpa using h
      have := ih l hl
      simp only [List.cons_append, List.isPrefixOf]
      rw [show l.append r = l ++ r from rfl, this]

/-- An occurrence that ends inside `s` does not depend on what follows `s`. -/
theorem occursAt_append_right (pat s r : Str) (k : Nat) (h : k + pat.length ≤ s.length) :
    occursAt pat (s ++ r) k = occursAt pat s k := by
  unfold occursAt
  rw [List.drop_append_of_le_length (by omega)]
  apply isPrefixOf_append_right
  simp only [List.length_drop]
  omega

theorem occursAt_append_left (pat pre s : Str) (k : Nat) :
    occursAt pat (pre ++ s) (pre.length + k) = occursAt pat s k := by
  unfold occursAt
  rw [List.drop_append]

theorem occursAt_append_self (pre pat r : Str) :
    occursAt pat (pre ++ (pat ++ r)) pre.length = true := by
  have h := occursAt_append_left pat pre (pat ++ r) 0
  rw [Nat.add_zero] at h
  rw [h]
  unfold occursAt
  rw [List.drop_zero]
  exact List.isPrefixOf_iff_prefix.mpr ⟨r, rfl⟩

theorem occursAt_newline_of_not_mem (name r : Str) (k : Nat) (hk : k < name.length)
    (h : '\n' ∉ name) : occursAt "\n".toList (name ++ r) k = false := by
  induction name generalizing k with
  | nil => simp at hk
  | cons c name ih =>
    have hc : ¬ c = '\n' := fun hc => h (by rw [hc]; exact List.mem_cons_self _ _)
    have hn : '\n' ∉ name := fun hm => h (List.mem_cons_of_mem _ hm)
    cases k with
    | zero =>
      have hc2 : ¬ '\n' = c := fun h2 => hc h2.symm
      simp [occursAt, List.isPrefixOf, hc2]
    | succ k =>
      rw [List.cons_append, occursAt_succ_cons]
      exact ih k (by simpa using hk) hn

theorem occursAt_end_false (pat s : Str) (hpat : pat ≠ []) :
    occursAt pat s s.length = false := by
  unfold occursAt
  rw [List.drop_length]
  cases pat with
  | nil => exact absurd rfl hpat
  | cons c pat => rfl

/-- The pattern that follows `s` is the first one met from the start of `s`
when no occurrence starts inside `s`. -/
theorem find_append_first (a s pat r : Str)
    (h : ∀ k, k < s.length → occursAt pat (s ++ pat) k = false) :
    find (a ++ (s ++ (pat ++ r))) pat a.length = a.length + s.length := by
  apply find_first
  · simp only [List.length_append]; omega
  · have hshape : a ++ (s ++ (pat ++ r)) = (a ++ s) ++ (pat ++ r) := by
      simp only [List.append_assoc]
    rw [hshape, ← List.length_append]
    exact occursAt_append_self _ _ _
  · intro k hk
    rw [occursAt_append_left, ← List.append_assoc,
      occursAt_append_right _ _ _ _ (by simp only [List.length_append]; omega)]
    exact h k hk

theorem find_append_none (a s pat : Str) (hpat : pat ≠ [])
    (h : ∀ k, k < s.length → occursAt pat s k = false) :
    find (a ++ s) pat a.length = npos := by
  apply find_none
  intro k h1 h2
  obtain ⟨j, rfl⟩ : ∃ j, k = a.length + j := ⟨k - a.length, by omega⟩
  rw [occursAt_append_left]
  simp only [List.length_append] at h2
  rcases Nat.lt_or_ge j s.length with hj | hj
  · exact h j hj
  · have : j = s.length := by omega
    rw [this]
    exact occursAt_end_false pat s hpat

theorem substr_append (a b c : Str) : substr (a ++ (b ++ c)) a.length b.length = some b := by
  have hlen : ¬ (a ++ (b ++ c)).length < a.length := by
    simp only [List.length_append]; omega
  simp only [substr, hlen, if_false, List.drop_left, List.take_left]

theorem erase_append (a b c : Str) :
    erase (a ++ (b ++ c)) a.length (b.length + 1) = some (a ++ c.drop 1) := by
  have hlen : ¬ (a ++ (b ++ c)).length < a.length := by
    simp only [List.length_append]; omega
  simp only [erase, hlen, if_false, List.drop_left, List.take_left, ← List.drop_drop]

/-! ## One iteration of the scan loop on a framed section -/

theorem emit_section_eq_store (st : Settings) (buf : Str) (b e : Nat) (w : World)
    (name payload : Str) (hn : section_file_name st buf b = some name)
    (hp : section_payload st buf b e = some payload) :
    emit_section st buf b e w = store_section st w name payload := by
  unfold emit_section store_section
  rw [hn]
  dsimp only
  cases resolve_duplicate w.disk (filename (st.directory ++ name)) with
  | none => rfl
  | some path => simp only [hp]

theorem frame_find_end (st : Settings) (pre : Str) (f : Frame) (rest : Str)
    (hem : ∀ k, k < (f.lead st).length →
      occursAt st.end_marker (f.lead st ++ st.end_marker) k = false) :
    find (pre ++ (f.render st ++ rest)) st.end_marker pre.length =
      pre.length + (f.lead st).length := by
  have hshape : pre ++ (f.render st ++ rest) =
      pre ++ (f.lead st ++ (st.end_marker ++ (f.gap ++ rest))) := by
    simp only [Frame.render, List.append_assoc]
  rw [hshape]
  exact find_append_first _ _ _ _ hem

theorem frame_lead_length (st : Settings) (f : Frame) :
    (f.lead st).length = st.begin_marker.length + f.name.length + f.payload.length + 2 := by
  simp only [Frame.lead, List.length_append, List.length_cons]
  omega

theorem frame_render_length (st : Settings) (f : Frame) :
    (f.render st).length =
      st.begin_marker.length + f.name.length + f.payload.length + 2
        + st.end_marker.length + f.gap.length := by
  simp only [Frame.render, List.length_append, frame_lead_length]
  omega

theorem frame_file_name_beginning (st : Settings) (pre : Str) (f : Frame) (rest : Str)
    (hsize : (pre ++ (f.render st ++ rest)).length < npos) :
    file_name_beginning st pre.length = pre.length + st.begin_marker.length + 1 := by
  simp only [List.length_append, frame_render_length] at hsize
  have hnpos : npos = 18446744073709551615 := rfl
  unfold file_name_beginning
  rw [wrap_of_lt (pre.length + st.begin_marker.length) (by omega),
    wrap_of_lt (pre.length + st.begin_marker.length + 1) (by omega)]

theorem frame_file_name_end (st : Settings) (pre : Str) (f : Frame) (rest : Str)
    (hnl : '\n' ∉ f.name) (hsize : (pre ++ (f.render st ++ rest)).length < npos) :
    file_name_end st (pre ++ (f.render st ++ rest)) pre.length =
      pre.length + st.begin_marker.length + 1 + f.name.length := by
  unfold file_name_end
  rw [frame_file_name_beginning st pre f rest hsize]
  have hshape : pre ++ (f.render st ++ rest) =
      (pre ++ (st.begin_marker ++ [' '])) ++
        (f.name ++ ("\n".toList ++ (f.payload ++ (st.end_marker ++ (f.gap ++ rest))))) := by
    simp [Frame.render, Frame.lead, List.append_assoc]
  have hlen : (pre ++ (st.begin_marker ++ [' '])).length =
      pre.length + st.begin_marker.length + 1 := by
    simp only [List.length_append, List.length_singleton]; omega
  rw [hshape, ← hlen]
  apply find_append_first
  intro k hk
  exact occursAt_newline_of_not_mem _ _ k hk hnl

theorem frame_section_file_name (st : Settings) (pre : Str) (f : Frame) (rest : Str)
    (hnl : '\n' ∉ f.name) (hsize : (pre ++ (f.render st ++ rest)).length < npos) :
    section_file_name st (pre ++ (f.render st ++ rest)) pre.length = some f.name := by
  unfold section_file_name
  rw [frame_file_name_end st pre f rest hnl hsize,
    frame_file_name_beginning st pre f rest hsize]
  have hs := hsize
  simp only [List.length_append, frame_render_length] at hs
  have hnpos : npos = 18446744073709551615 := rfl
  rw [size_sub_of_le (pre.length + st.begin_marker.length + 1 + f.name.length)
    (pre.length + st.begin_marker.length + 1) (by omega) (by omega)]
  have hshape : pre ++ (f.render st ++ rest) =
      (pre ++ (st.begin_marker ++ [' '])) ++
        (f.name ++ ("\n".toList ++ (f.payload ++ (st.end_marker ++ (f.gap ++ rest))))) := by
    simp [Frame.render, Frame.lead, List.append_assoc]
  have hlen : (pre ++ (st.begin_marker ++ [' '])).length =
      pre.length + st.begin_marker.length + 1 := by
    simp only [List.length_append, List.length_singleton]; omega
  rw [hshape, ← hlen, Nat.add_sub_cancel_left]
  exact substr_append _ _ _

theorem frame_section_payload (st : Settings) (pre : Str) (f : Frame) (rest : Str)
    (hnl : '\n' ∉ f.name) (hsize : (pre ++ (f.render st ++ rest)).length < npos) :
    section_payload st (pre ++ (f.render st ++ rest)) pre.length
      (pre.length + (f.lead st).length) = some f.payload := by
  unfold section_payload
  rw [frame_file_name_end st pre f rest hnl hsize, frame_lead_length]
  have hs := hsize
  simp only [List.length_append, frame_render_length] at hs
  have hnpos : npos = 18446744073709551615 := rfl
  rw [wrap_of_lt (pre.length + st.begin_marker.length + 1 + f.name.length + 1) (by omega),
    size_sub_of_le
      (pre.length + (st.begin_marker.length + f.name.length + f.payload.length + 2))
      (pre.length + st.begin_marker.length + 1 + f.name.length) (by omega) (by omega),
    size_sub_of_le
      (pre.length + (st.begin_marker.length + f.name.length + f.payload.length + 2)
        - (pre.length + st.begin_marker.length + 1 + f.name.length)) 1 (by omega) (by omega)]
  have hshape : pre ++ (f.render st ++ rest) =
      (pre ++ (st.begin_marker ++ (' ' :: (f.name ++ ['\n'])))) ++
        (f.payload ++ (st.end_marker ++ (f.gap ++ rest))) := by
    simp [Frame.render, Frame.lead, List.append_assoc]
  have hlen : (pre ++ (st.begin_marker ++ (' ' :: (f.name ++ ['\n'])))).length =
      pre.length + st.begin_marker.length + 1 + f.name.length + 1 := by
    simp only [List.length_append, List.length_cons, List.length_nil]; omega
  have hcount : pre.length + (st.begin_marker.length + f.name.length + f.payload.length + 2)
      - (pre.length + st.begin_marker.length + 1 + f.name.length) - 1 = f.payload.length := by
    omega
  rw [hshape, ← hlen, hcount]
  exact substr_append _ _ _

theorem frame_erase (st : Settings) (pre : Str) (f : Frame) (rest : Str)
    (hgap : f.gap ≠ []) (hsize : (pre ++ (f.render st ++ rest)).length < npos) :
    erase (pre ++ (f.render st ++ rest)) pre.length
      (wrap (wrap (size_sub (pre.length + (f.lead st).length) pre.length
        + st.end_marker.length) + 1)) = some (pre ++ (f.gap.drop 1 ++ rest)) := by
  have hs := hsize
  have hg : 0 < f.gap.length := List.length_pos.mpr hgap
  simp only [List.length_append, frame_render_length] at hs
  have hl := frame_lead_length st f
  have hnpos : npos = 18446744073709551615 := rfl
  rw [size_sub_of_le (pre.length + (f.lead st).length) pre.length (by omega) (by omega),
    Nat.add_sub_cancel_left,
    wrap_of_lt ((f.lead st).length + st.end_marker.length) (by omega),
    wrap_of_lt ((f.lead st).length + st.end_marker.length + 1) (by omega)]
  have hshape : pre ++ (f.render st ++ rest) =
      pre ++ ((f.lead st ++ st.end_marker) ++ (f.gap ++ rest)) := by
    simp only [Frame.render, List.append_assoc]
  rw [hshape, ← List.length_append, erase_append]
  congr 2
  rw [List.drop_append_of_le_length (by omega)]

theorem render_frames_nil (st : Settings) : render_frames st [] = [] := rfl

theorem render_frames_cons (st : Settings) (f : Frame) (frames : List Frame) :
    render_frames st (f :: frames) = f.render st ++ render_frames st frames := by
  simp [render_frames]

theorem render_frames_cons_begin (st : Settings) (f : Frame) (frames : List Frame) :
    render_frames st (f :: frames) =
      st.begin_marker ++ ((' ' :: (f.name ++ ('\n' :: f.payload))) ++
        (st.end_marker ++ f.gap) ++ render_frames st frames) := by
  rw [render_frames_cons]
  simp only [Frame.render, Frame.lead, List.append_assoc]

/-- One iteration of the scan loop on a frame that starts at `beginning`:
the filename and payload of the frame are stored, the frame is erased up to
the first character of its gap, and the scan goes on from the same offset. -/
theorem separate_loop_frame (st : Settings) (fuel : Nat) (pre : Str) (f : Frame) (rest : Str)
    (w : World) (hnl : '\n' ∉ f.name) (hgap : f.gap ≠ [])
    (hem : ∀ k, k < (f.lead st).length →
      occursAt st.end_marker (f.lead st ++ st.end_marker) k = false)
    (hsize : (pre ++ (f.render st ++ rest)).length < npos) :
    separate_loop st (fuel + 1) (pre ++ (f.render st ++ rest)) pre.length w =
      match store_section st w f.name f.payload with
      | .error r => some r
      | .ok w1 =>
        separate_loop st fuel (pre ++ (f.gap.drop 1 ++ rest))
          (find (pre ++ (f.gap.drop 1 ++ rest)) st.begin_marker pre.length) w1 := by
  have hnpos : npos = 18446744073709551615 := rfl
  have hs := hsize
  simp only [List.length_append, frame_render_length] at hs
  have hl := frame_lead_length st f
  have hb : ¬ pre.length = npos := by omega
  have he : pre.length + (f.lead st).length ≠ npos := by omega
  conv_lhs => unfold separate_loop
  simp only [hb, if_false]
  rw [frame_find_end st pre f rest hem]
  simp only [he, ne_eq, not_false_eq_true, if_true]
  rw [emit_section_eq_store st _ _ _ w f.name f.payload
    (frame_section_file_name st pre f rest hnl hsize)
    (frame_section_payload st pre f rest hnl hsize)]
  cases store_section st w f.name f.payload with
  | error r => rfl
  | ok w1 =>
    dsimp only
    rw [frame_erase st pre f rest hgap hsize]

/-- The scan loop on a sequence of well-formed frames stores their filenames
and payloads in order, and returns. -/
theorem separate_loop_frames (st : Settings) (hbm : st.begin_marker ≠ [])
    (frames : List Frame) :
    ∀ (f : Frame) (pre : Str) (w : World) (fuel : Nat),
      frames_wf st (f :: frames) →
      (pre ++ render_frames st (f :: frames)).length < npos →
      frames.length + 2 ≤ fuel →
      separate_loop st fuel (pre ++ render_frames st (f :: frames)) pre.length w =
        some (store_all st w ((f :: frames).map fun x => (x.name, x.payload))) := by
  induction frames with
  | nil =>
    intro f pre w fuel hwf hsize hfuel
    obtain ⟨fuel, rfl⟩ : ∃ n, fuel = n + 2 := ⟨fuel - 2, by simp at hfuel; omega⟩
    obtain ⟨hnl, hgap, hem, hbegin⟩ := hwf
    rw [render_frames_cons, render_frames_nil] at hsize ⊢
    rw [separate_loop_frame st (fuel + 1) pre f [] w hnl hgap hem hsize]
    simp only [List.map, store_all]
    cases store_section st w f.name f.payload with
    | error r => rfl
    | ok w1 =>
      dsimp only
      rw [find_append_none pre (f.gap.drop 1 ++ []) st.begin_marker hbm
        (by simpa using hbegin)]
      simp [separate_loop]
  | cons g frames ih =>
    intro f pre w fuel hwf hsize hfuel
    obtain ⟨fuel, rfl⟩ : ∃ n, fuel = n + 1 := ⟨fuel - 1, by simp at hfuel; omega⟩
    obtain ⟨⟨hnl, hgap, hem, hbegin⟩, hrest⟩ := hwf
    rw [render_frames_cons] at hsize ⊢
    rw [separate_loop_frame st fuel pre f _ w hnl hgap hem hsize]
    rw [List.map_cons]
    conv_rhs => unfold store_all
    dsimp only
    cases store_section st w f.name f.payload with
    | error r => rfl
    | ok w1 =>
      dsimp only
      have hfind : find (pre ++ (f.gap.drop 1 ++ render_frames st (g :: frames)))
          st.begin_marker pre.length = pre.length + (f.gap.drop 1).length := by
        rw [render_frames_cons_begin]
        exact find_append_first _ _ _ _ hbegin
      rw [hfind, ← List.length_append, ← List.append_assoc]
      apply ih g (pre ++ f.gap.drop 1) w1 fuel hrest
      · have hg : 0 < f.gap.length := List.length_pos.mpr hgap
        simp only [List.length_append, frame_render_length, List.length_drop] at hsize ⊢
        omega
      · simp only [List.length_cons] at hfuel
        omega

/-- A working buffer made of some text followed by well-formed frames passes
the validation and is separated into the frames' filenames and payloads. -/
theorem separate_buffer_frames (st : Settings) (hbm : st.begin_marker ≠ []) (t0 : Str)
    (f : Frame) (frames : List Frame) (w : World) (fuel : Nat)
    (ht0 : ∀ k, k < t0.length → occursAt st.begin_marker (t0 ++ st.begin_marker) k = false)
    (hwf : frames_wf st (f :: frames))
    (hsize : (t0 ++ render_frames st (f :: frames)).length < npos)
    (hfuel : frames.length + 2 ≤ fuel) :
    separate_buffer st fuel (t0 ++ render_frames st (f :: frames)) w =
      some (store_all st w ((f :: frames).map fun x => (x.name, x.payload))) := by
  have hbegin : find (t0 ++ render_frames st (f :: frames)) st.begin_marker 0 = t0.length := by
    have h := find_append_first [] t0 st.begin_marker
      (((' ' :: (f.name ++ ('\n' :: f.payload))) ++ (st.end_marker ++ f.gap))
        ++ render_frames st frames) ht0
    rw [render_frames_cons_begin]
    simpa using h
  have hend : ¬ find (t0 ++ render_frames st (f :: frames)) st.end_marker 0 = npos := by
    rw [find_zero_eq_npos_iff _ _ hsize]
    intro hno
    apply hno
    refine ⟨t0 ++ f.lead st, f.gap ++ render_frames st frames, ?_⟩
    rw [render_frames_cons]
    simp only [Frame.render, List.append_assoc]
  have hb : ¬ t0.length = npos := by
    simp only [List.length_append] at hsize
    omega
  unfold separate_buffer
  rw [hbegin]
  simp only [hb, hend, or_self, if_false]
  exact separate_loop_frames st hbm frames f t0 w fuel hwf hsize hfuel

/-! ## Writes -/

theorem render_followed_by (st : Settings) (f : Frame) (t : Str) :
    (f.followed_by t).render st = f.render st ++ t := by
  simp [Frame.render, Frame.followed_by, Frame.lead, List.append_assoc]

theorem render_ofSection_text (st : Settings) (name payload : Str) :
    (Frame.ofSection name payload).render st = section_text st name payload := by
  simp [Frame.render, Frame.lead, Frame.ofSection, section_text, List.append_assoc]

theorem render_frames_sections (st : Settings) (secs : List (Str × Str × Str)) :
    render_frames st (secs.map fun s => Frame.ofSection s.1 s.2.1) =
      (secs.map fun s => section_text st s.1 s.2.1).flatten := by
  simp only [render_frames, List.map_map]
  congr 1
  apply List.map_congr_left
  intro s _
  exact render_ofSection_text st s.1 s.2.1

theorem render_frames_sections_text (st : Settings) (secs : List (Str × Str × Str)) :
    render_frames st (secs.map fun s => (Frame.ofSection s.1 s.2.1).followed_by s.2.2) =
      (secs.map fun s => section_text st s.1 s.2.1 ++ s.2.2).flatten := by
  simp only [render_frames, List.map_map]
  congr 1
  apply List.map_congr_left
  intro s _
  simp only [Function.comp, render_followed_by, render_ofSection_text]

theorem sections_length_le (st : Settings) (secs : List (Str × Str × Str)) :
    (secs.map fun s => section_text st s.1 s.2.1).flatten.length ≤
      (secs.map fun s => section_text st s.1 s.2.1 ++ s.2.2).flatten.length := by
  induction secs with
  | nil => simp
  | cons s secs ih =>
    simp only [List.map_cons, List.flatten_cons, List.length_append]
    omega

set_option maxRecDepth 1000000 in
/-- C8 (as stated, refuted): the text `--!- BINER FILE BEGIN -!` contains
neither marker, but placed before the section of `a.txt` it completes a begin
marker 24 characters early, and the file is written under another name. -/
theorem separate_surrounding_text_counterexample :
    ¬ settings_out.begin_marker <:+: text_overlap ∧
      ¬ settings_out.end_marker <:+: text_overlap ∧
      outcome (separate_buffer settings_out 10
        (text_overlap ++ section_text settings_out "a.txt".toList "hello\n".toList)
        (World.init (Disk.ofList []))) =
          some (.done, [("out/- BINER FILE BEGIN -!-- a.txt".toList, "hello\n".toList)]) ∧
      outcome (separate_buffer settings_out 10
        (section_text settings_out "a.txt".toList "hello\n".toList)
        (World.init (Disk.ofList []))) =
          some (.done, [("out/a.txt".toList, "hello\n".toList)]) := by
  decide

/-- C8 (amended): surrounding text is discarded as long as it leaves the
sections recognisable.  Take a non-empty sequence of sections that is
well-formed on its own, a text `t0` before it and a text after each section,
such that no begin marker starts inside `t0` or inside the text between a
section's end marker and the next section, even when read together with the
begin marker that follows (and none at all after the last section).  Then
separating `t0 + section1 + t1 + ... + section_n + tn` gives exactly the
result (status, files and their contents, order of writes) of separating
`section1 + ... + section_n`: the sections' filenames and payloads are stored
in order. -/
theorem separate_surrounding_text (st : Settings) (fuel : Nat) (w : World) (t0 : Str)
    (secs : List (Str × Str × Str))
    (hbm : st.begin_marker ≠ [])
    (hne : secs ≠ [])
    (hplain : frames_wf st (secs.map fun s => Frame.ofSection s.1 s.2.1))
    (htext : frames_wf st (secs.map fun s => (Frame.ofSection s.1 s.2.1).followed_by s.2.2))
    (ht0 : ∀ k, k < t0.length → occursAt st.begin_marker (t0 ++ st.begin_marker) k = false)
    (hsize : (t0 ++ (secs.map fun s => section_text st s.1 s.2.1 ++ s.2.2).flatten).length
      < npos)
    (hfuel : secs.length + 1 ≤ fuel) :
    separate_buffer st fuel
        (t0 ++ (secs.map fun s => section_text st s.1 s.2.1 ++ s.2.2).flatten) w =
      separate_buffer st fuel (secs.map fun s => section_text st s.1 s.2.1).flatten w ∧
    separate_buffer st fuel (secs.map fun s => section_text st s.1 s.2.1).flatten w =
      some (store_all st w (secs.map fun s => (s.1, s.2.1))) := by
  obtain ⟨s0, rest, rfl⟩ : ∃ s0 rest, secs = s0 :: rest := by
    cases secs with
    | nil => exact absurd rfl hne
    | cons s0 rest => exact ⟨s0, rest, rfl⟩
  have hle := sections_length_le st (s0 :: rest)
  have hfuel2 : (rest.map fun s : Str × Str × Str =>
      (Frame.ofSection s.1 s.2.1).followed_by s.2.2).length + 2 ≤ fuel := by
    simp only [List.length_map, List.length_cons] at hfuel ⊢; omega
  have hfuel1 : (rest.map fun s : Str × Str × Str =>
      Frame.ofSection s.1 s.2.1).length + 2 ≤ fuel := by
    simp only [List.length_map, List.length_cons] at hfuel ⊢; omega
  have hA := separate_buffer_frames st hbm t0
    ((Frame.ofSection s0.1 s0.2.1).followed_by s0.2.2)
    (rest.map fun s : Str × Str × Str => (Frame.ofSection s.1 s.2.1).followed_by s.2.2)
    w fuel ht0 htext
    (by
      have h := render_frames_sections_text st (s0 :: rest)
      rw [List.map_cons] at h
      rw [h]; exact hsize)
    hfuel2
  have hB := separate_buffer_frames st hbm [] (Frame.ofSection s0.1 s0.2.1)
    (rest.map fun s : Str × Str × Str => Frame.ofSection s.1 s.2.1) w fuel
    (fun k hk => absurd hk (Nat.not_lt_zero k)) hplain
    (by
      have h := render_frames_sections st (s0 :: rest)
      rw [List.map_cons] at h
      rw [h, List.nil_append]
      simp only [List.length_append] at hsize
      omega)
    hfuel1
  have hnames : (((Frame.ofSection s0.1 s0.2.1).followed_by s0.2.2) ::
      rest.map fun s : Str × Str × Str => (Frame.ofSection s.1 s.2.1).followed_by s.2.2).map
        (fun x => (x.name, x.payload)) = (s0 :: rest).map fun s => (s.1, s.2.1) := by
    simp [Frame.followed_by, Frame.ofSection, List.map_map, Function.comp]
  have hnames2 : ((Frame.ofSection s0.1 s0.2.1) ::
      rest.map fun s : Str × Str × Str => Frame.ofSection s.1 s.2.1).map
        (fun x => (x.name, x.payload)) = (s0 :: rest).map fun s => (s.1, s.2.1) := by
    simp [Frame.ofSection, List.map_map, Function.comp]
  have hbufA := render_frames_sections_text st (s0 :: rest)
  have hbufB := render_frames_sections st (s0 :: rest)
  rw [List.map_cons] at hbufA hbufB
  rw [hbufA, hnames] at hA
  rw [hbufB, hnames2, List.nil_append] at hB
  exact ⟨hA.trans hB.symm, hB⟩

set_option maxRecDepth 1000000 in
/-- Witness for C8 (amended): the sections of scenario S1 with text before,
between and after them are separated like the bare sections. -/
theorem separate_surrounding_text_witness :
    separate_buffer settings_out 10
        ("intro\n".toList ++
          ([("a.txt".toList, "hello\n".toList, "between\n".toList),
            ("b.txt".toList, "world".toList, "the end".toList)].map
              fun s => section_text settings_out s.1 s.2.1 ++ s.2.2).flatten)
        (World.init (Disk.ofList [])) =
      separate_buffer settings_out 10
        ([("a.txt".toList, "hello\n".toList, "between\n".toList),
          ("b.txt".toList, "world".toList, "the end".toList)].map
            fun s => section_text settings_out s.1 s.2.1).flatten
        (World.init (Disk.ofList [])) :=
  (separate_surrounding_text settings_out 10 (World.init (Disk.ofList [])) "intro\n".toList
    [("a.txt".toList, "hello\n".toList, "between\n".toList),
      ("b.txt".toList, "world".toList, "the end".toList)]
    (by decide) (by decide)
    ⟨⟨by decide, by decide, by decide, by decide⟩,
      ⟨by decide, by decide, by decide, by decide⟩⟩
    ⟨⟨by decide, by decide, by decide, by decide⟩,
      ⟨by decide, by decide, by decide, by decide⟩⟩
    (by decide) (by decide) (by decide)).1

/-! ## `combine_files` and list concatenation -/

/-- C17: `combine_files` distributes over list concatenation: when all paths
of `xs` and `ys` exist and are readable, on the same filesystem,
`combine_files` of `xs ++ ys` is the bundle of `xs` followed by the bundle of
`ys`. -/
theorem combine_files_append (st : Settings) (d : Disk) (xs ys : List Str)
    (hx : ∀ p ∈ xs, is_open d p = true) (hy : ∀ p ∈ ys, is_open d p = true) :
    ∃ bx bys, combine_files st d xs = .ok bx ∧ combine_files st d ys = .ok bys ∧
      combine_files st d (xs ++ ys) = .ok (bx ++ bys) := by
  have hxy : ∀ p ∈ xs ++ ys, is_open d p = true := by
    intro p hp
    rcases List.mem_append.mp hp with h | h
    · exact hx p h
    · exact hy p h
  refine ⟨(xs.map (combine_section st d)).flatten, (ys.map (combine_section st d)).flatten,
    ?_, ?_, ?_⟩
  · unfold combine_files
    rw [combine_loop_ok st d xs [] hx, List.nil_append]
  · unfold combine_files
    rw [combine_loop_ok st d ys [] hy, List.nil_append]
  · unfold combine_files
    rw [combine_loop_ok st d (xs ++ ys) [] hxy, List.nil_append, List.map_append,
      List.flatten_append]

/-- Witness for C17 on scenario S1: the bundle of `[a.txt, b.txt]` is the
bundle of `[a.txt]` followed by the bundle of `[b.txt]`. -/
theorem combine_files_append_witness :
    (∀ p ∈ ["a.txt".toList], is_open disk_s1 p = true) ∧
      (∀ p ∈ ["b.txt".toList], is_open disk_s1 p = true) ∧
      ∃ bx bys, combine_files Settings.default disk_s1 ["a.txt".toList] = .ok bx ∧
        combine_files Settings.default disk_s1 ["b.txt".toList] = .ok bys ∧
        combine_files Settings.default disk_s1 (["a.txt".toList] ++ ["b.txt".toList])
          = .ok (bx ++ bys) :=
  ⟨by decide, by decide,
    combine_files_append Settings.default disk_s1 ["a.txt".toList] ["b.txt".toList]
      (by decide) (by decide)⟩

/-! ## `separate_files`: a destination that cannot be opened -/

/-- An occurrence of a non-empty pattern lies inside the string. -/
theorem occursAt_bound (pat s : Str) (k : Nat) (h : occursAt pat s k = true) :
    k + pat.length ≤ s.length ∨ pat = [] := by
  cases pat with
  | nil => exact Or.inr rfl
  | cons c pat =>
    left
    have hle := (List.isPrefixOf_iff_prefix.mp h).length_le
    simp only [List.length_cons, List.length_drop] at hle ⊢
    omega

/-- The payload `substr` of line 142 is never out of range: its start is `0`
when no newline is found, and at most the buffer length otherwise. -/
theorem section_payload_some (st : Settings) (buf : Str) (b e : Nat)
    (hlen : buf.length < npos) : ∃ payload, section_payload st buf b e = some payload := by
  have hnpos : npos = 18446744073709551615 := rfl
  have hstart : ¬ buf.length < wrap (file_name_end st buf b + 1) := by
    unfold file_name_end
    rcases find_spec buf "\n".toList (file_name_beginning st b) with
      ⟨n, hn, hf, hat, _⟩ | ⟨hf, _⟩
    · rw [hf]
      rcases occursAt_bound _ _ _ hat with hb | hb
      · have h1 : "\n".toList.length = 1 := rfl
        rw [h1] at hb
        rw [wrap_of_lt _ (by omega)]
        omega
      · cases hb
    · rw [hf]
      have : wrap (npos + 1) = 0 := by decide
      rw [this]
      omega
  refine ⟨(buf.drop (wrap (file_name_end st buf b + 1))).take
    (size_sub (size_sub e (file_name_end st buf b)) 1), ?_⟩
  simp only [section_payload, substr, hstart, if_false]

theorem open_trunc_unwritable (d : Disk) (t : Str) (hw : d.writable (d.key t) = false) :
    d.open_trunc t = d := by
  simp [Disk.open_trunc, hw]

theorem stream_write_unwritable (d : Disk) (t p : Str) (hw : d.writable (d.key t) = false) :
    d.stream_write t p = d := by
  simp [Disk.stream_write, hw]

set_option maxRecDepth 1000000 in
/-- C11 (code at the failing input): `out/a.txt` cannot be opened for
writing; the bundle of S1 is separated into `out/` without any failure: the
run returns normally, nothing is stored for `a.txt`, and the later section
`b.txt` is written.  The stream of line 140 is never tested. -/
theorem separate_files_unwritable_continues :
    disk_readonly.writable (disk_readonly.key "out/a.txt".toList) = false ∧
      outcome (separate_files settings_out 10 [bundle_s1] (World.init disk_readonly)) =
        some (.done, [("out/a.txt".toList, "hello\n".toList),
          ("out/b.txt".toList, "world".toList)]) ∧
      stored (separate_files settings_out 10 [bundle_s1] (World.init disk_readonly))
        "out/a.txt".toList = some none ∧
      stored (separate_files settings_out 10 [bundle_s1] (World.init disk_readonly))
        "out/b.txt".toList = some (some "world".toList) := by
  decide

/-- In general, when the destination of a section cannot be opened for
writing, the scan loop raises no failure: the stream stays closed, the disk
is left exactly as it was (so the files written for earlier sections remain),
and the loop goes on with the rest of the buffer as after a successful
write. -/
theorem separate_loop_unwritable (st : Settings) (fuel : Nat) (fileContents : Str)
    (beginning : Nat) (w : World) (fileName path : Str)
    (hlen : fileContents.length < npos)
    (hb : beginning ≠ npos)
    (he : find fileContents st.end_marker beginning ≠ npos)
    (hname : section_file_name st fileContents beginning = some fileName)
    (hres : resolve_duplicate w.disk (filename (st.directory ++ fileName)) = some path)
    (hw : w.disk.writable (w.disk.key (st.directory ++ path)) = false) :
    ∃ payload erased,
      section_payload st fileContents beginning
        (find fileContents st.end_marker beginning) = some payload ∧
      erase fileContents beginning
        (wrap (wrap (size_sub (find fileContents st.end_marker beginning) beginning
          + st.end_marker.length) + 1)) = some erased ∧
      emit_section st fileContents beginning (find fileContents st.end_marker beginning) w =
        .ok ⟨w.disk, w.log ++ [(st.directory ++ path, payload)]⟩ ∧
      separate_loop st (fuel + 1) fileContents beginning w =
        separate_loop st fuel erased (find erased st.begin_marker beginning)
          ⟨w.disk, w.log ++ [(st.directory ++ path, payload)]⟩ := by
  obtain ⟨payload, hpay⟩ := section_payload_some st fileContents beginning
    (find fileContents st.end_marker beginning) hlen
  have hpos : ¬ fileContents.length < beginning := by
    intro hlt
    apply he
    simp [find, hlt]
  have hemit : emit_section st fileContents beginning
      (find fileContents st.end_marker beginning) w =
        .ok ⟨w.disk, w.log ++ [(st.directory ++ path, payload)]⟩ := by
    unfold emit_section
    rw [hname]
    dsimp only
    rw [hres]
    dsimp only
    rw [hpay]
    dsimp only
    have h1 := open_trunc_unwritable w.disk (st.directory ++ path) hw
    rw [h1, stream_write_unwritable w.disk (st.directory ++ path) payload hw]
  refine ⟨payload, fileContents.take beginning ++ (fileContents.drop beginning).drop
    (wrap (wrap (size_sub (find fileContents st.end_marker beginning) beginning
      + st.end_marker.length) + 1)), hpay, by simp only [erase, hpos, if_false], hemit, ?_⟩
  conv_lhs => unfold separate_loop
  simp only [hb, if_false, he, ne_eq, not_false_eq_true, if_true, hemit, erase, hpos]

set_option maxRecDepth 1000000 in
/-- Example: the first iteration on the bundle of S1 with `out/a.txt` not
writable leaves the disk as it was and goes on. -/
theorem separate_loop_unwritable_witness :
    section_file_name settings_out bundle_s1 0 = some "a.txt".toList ∧
      resolve_duplicate (World.init disk_readonly).disk
        (filename (settings_out.directory ++ "a.txt".toList)) = some "a.txt".toList ∧
      (World.init disk_readonly).disk.writable
        ((World.init disk_readonly).disk.key (settings_out.directory ++ "a.txt".toList))
          = false ∧
      ∃ payload erased,
        section_payload settings_out bundle_s1 0
          (find bundle_s1 settings_out.end_marker 0) = some payload ∧
        erase bundle_s1 0
          (wrap (wrap (size_sub (find bundle_s1 settings_out.end_marker 0) 0
            + settings_out.end_marker.length) + 1)) = some erased ∧
        emit_section settings_out bundle_s1 0 (find bundle_s1 settings_out.end_marker 0)
            (World.init disk_readonly) =
          .ok ⟨(World.init disk_readonly).disk,
            (World.init disk_readonly).log ++
              [(settings_out.directory ++ "a.txt".toList, payload)]⟩ ∧
        separate_loop settings_out (9 + 1) bundle_s1 0 (World.init disk_readonly) =
          separate_loop settings_out 9 erased (find erased settings_out.begin_marker 0)
            ⟨(World.init disk_readonly).disk,
              (World.init disk_readonly).log ++
                [(settings_out.directory ++ "a.txt".toList, payload)]⟩ :=
  ⟨by decide, by decide, by decide,
    separate_loop_unwritable settings_out 9 bundle_s1 0 (World.init disk_readonly)
      "a.txt".toList "a.txt".toList (by decide) (by decide) (by decide) (by decide)
      (by decide) (by decide)⟩

/-! ## `separate_files`: an unmatched begin marker -/

set_option maxRecDepth 1000000 in
theorem separate_loop_unmatched_step (fuel : Nat) (w : World) :
    separate_loop Settings.default (fuel + 1) buffer_unmatched 24 w =
      separate_loop Settings.default fuel buffer_unmatched 24 w := by
  rfl

theorem separate_loop_unmatched (fuel : Nat) (w : World) :
    separate_loop Settings.default fuel buffer_unmatched 24 w = none := by
  induction fuel with
  | zero => rfl
  | succ fuel ih => rw [separate_loop_unmatched_step, ih]

set_option maxRecDepth 1000000 in
theorem separate_loop_truncated_step (fuel : Nat) (w : World) :
    separate_loop settings_out (fuel + 1) rest_truncated 24 w =
      separate_loop settings_out fuel rest_truncated 24 w := by
  rfl

theorem separate_loop_truncated (fuel : Nat) (w : World) :
    separate_loop settings_out fuel rest_truncated 24 w = none := by
  induction fuel with
  | zero => rfl
  | succ fuel ih => rw [separate_loop_truncated_step, ih]

set_option maxRecDepth 1000000 in
theorem separate_loop_truncated_first (fuel : Nat) :
    ∃ w1, separate_loop settings_out (fuel + 1) bundle_truncated 0 (World.init (Disk.ofList []))
      = separate_loop settings_out fuel rest_truncated 24 w1 :=
  ⟨_, rfl⟩

set_option maxRecDepth 1000000 in
/-- C12 (code at the failing input): on the buffer made of the end marker
followed by the begin marker, which passes validation, the scan loop never
returns, whatever the fuel: the begin marker at offset 24 has no end marker
after it, the erase length `npos - 24 + 24 + 1` wraps to `0`, nothing is
erased and the same begin marker is found again.  The same happens on a
bundle cut off inside its second section when the first file's name has 23
characters. -/
theorem separate_buffer_unmatched_never_returns :
    find buffer_unmatched Settings.default.begin_marker 0 = 24 ∧
      find buffer_unmatched Settings.default.end_marker 0 = 0 ∧
      find buffer_unmatched Settings.default.end_marker 24 = npos ∧
      erase buffer_unmatched 24
        (wrap (wrap (size_sub npos 24 + Settings.default.end_marker.length) + 1))
          = some buffer_unmatched ∧
      (∀ fuel w, separate_buffer Settings.default fuel buffer_unmatched w = none) ∧
      (∀ fuel, separate_buffer settings_out fuel bundle_truncated
        (World.init (Disk.ofList [])) = none) := by
  refine ⟨by decide, by decide, by decide, by decide, ?_, ?_⟩
  · intro fuel w
    have h : separate_buffer Settings.default fuel buffer_unmatched w =
        separate_loop Settings.default fuel buffer_unmatched 24 w := by rfl
    rw [h, separate_loop_unmatched]
  · intro fuel
    have h : separate_buffer settings_out fuel bundle_truncated (World.init (Disk.ofList [])) =
        separate_loop settings_out fuel bundle_truncated 0 (World.init (Disk.ofList [])) := by
      rfl
    rw [h]
    cases fuel with
    | zero => rfl
    | succ fuel =>
      obtain ⟨w1, hw1⟩ := separate_loop_truncated_first fuel
      rw [hw1, separate_loop_truncated]

/-! ## `separate_files`: every stream is opened inside the destination directory -/

theorem opens_inside_refl (st : Settings) (l : List (Str × Str)) : opens_inside st l l :=
  ⟨[], by simp, fun e he => absurd he (List.not_mem_nil e)⟩

theorem opens_inside_trans (st : Settings) (l0 l1 l2 : List (Str × Str))
    (h1 : opens_inside st l0 l1) (h2 : opens_inside st l1 l2) : opens_inside st l0 l2 := by
  obtain ⟨a1, rfl, ha1⟩ := h1
  obtain ⟨a2, rfl, ha2⟩ := h2
  refine ⟨a1 ++ a2, by simp, ?_⟩
  intro e he
  rcases List.mem_append.mp he with h | h
  · exact ha1 e h
  · exact ha2 e h

theorem opens_inside_one (st : Settings) (l : List (Str × Str)) (name payload : Str)
    (h : '/' ∉ name) : opens_inside st l (l ++ [(st.directory ++ name, payload)]) := by
  refine ⟨[(st.directory ++ name, payload)], rfl, ?_⟩
  intro e he
  rw [List.mem_singleton] at he
  subst he
  exact ⟨name, rfl, h⟩

/-- The name chosen by lines 118-138 holds no `/`. -/
theorem resolve_duplicate_not_mem (d : Disk) (p r : Str)
    (h : resolve_duplicate d (filename p) = some r) : '/' ∉ r := by
  obtain ⟨suffix, hr, hshape, _⟩ := resolve_duplicate_some d (filename p) r h
  subst hr
  intro hmem
  rcases List.mem_append.mp hmem with h1 | h1
  · exact filename_not_mem p h1
  · rcases hshape with hs | ⟨k, _, _, hs⟩
    · rw [hs] at h1; cases h1
    · rw [hs] at h1
      rcases List.mem_append.mp h1 with h2 | h2
      · revert h2; decide
      · exact to_string_not_mem k h2

theorem emit_section_opens_inside (st : Settings) (buf : Str) (b e : Nat) (w : World) :
    opens_inside st w.log (result_world (emit_section st buf b e w)).log := by
  unfold emit_section
  split
  · exact opens_inside_refl st _
  · dsimp only
    split
    · exact opens_inside_refl st _
    · rename_i path hres
      have hpath := resolve_duplicate_not_mem _ _ _ hres
      split
      · exact opens_inside_one st _ path [] hpath
      · exact opens_inside_one st _ path _ hpath

theorem separate_loop_opens_inside (st : Settings) (fuel : Nat) :
    ∀ (buf : Str) (b : Nat) (w : World) (r : Status × World),
      separate_loop st fuel buf b w = some r → opens_inside st w.log r.2.log := by
  induction fuel with
  | zero =>
    intro buf b w r h
    simp [separate_loop] at h
  | succ fuel ih =>
    intro buf b w r h
    unfold separate_loop at h
    split at h
    · cases h
      exact opens_inside_refl st _
    · dsimp only at h
      split at h
      · rename_i r1 hr1
        cases h
        split at hr1
        · have := emit_section_opens_inside st buf b (find buf st.end_marker b) w
          rw [hr1] at this
          exact this
        · cases hr1
      · rename_i w1 hw1
        have hstep : opens_inside st w.log w1.log := by
          split at hw1
          · have := emit_section_opens_inside st buf b (find buf st.end_marker b) w
            rw [hw1] at this
            exact this
          · cases hw1
            exact opens_inside_refl st _
        split at h
        · cases h
          exact hstep
        · exact opens_inside_trans st _ _ _ hstep (ih _ _ _ _ h)

theorem separate_buffer_opens_inside (st : Settings) (fuel : Nat) (buf : Str) (w : World)
    (r : Status × World) (h : separate_buffer st fuel buf w = some r) :
    opens_inside st w.log r.2.log := by
  unfold separate_buffer at h
  split at h
  · cases h
    exact opens_inside_refl st _
  · exact separate_loop_opens_inside st fuel _ _ _ _ h

/-- C15: whatever the buffer, the settings and the filename found on a marker
line (`../../x`, `/etc/x`, ...), every path `separate_files` opens for
writing is `settings.directory` followed by a name that holds no `/`: this
holds for each pass through lines 111-144, however it ends, and hence for
all the streams opened by a run. -/
theorem separate_files_opens_inside (st : Settings) :
    (∀ (fileContents : Str) (beginning end_ : Nat) (w : World),
      opens_inside st w.log
        (result_world (emit_section st fileContents beginning end_ w)).log) ∧
    (∀ (fuel : Nat) (files : List Str) (w : World) (r : Status × World),
      separate_files st fuel files w = some r → opens_inside st w.log r.2.log) := by
  refine ⟨emit_section_opens_inside st, ?_⟩
  intro fuel files
  induction files with
  | nil =>
    intro w r h
    simp only [separate_files, Option.some.injEq] at h
    subst h
    exact opens_inside_refl st _
  | cons it rest ih =>
    intro w r h
    unfold separate_files at h
    split at h
    · cases h
      exact opens_inside_refl st _
    · rename_i buf hbuf
      split at h
      · rename_i w1 hw1
        exact opens_inside_trans st _ _ _
          (separate_buffer_opens_inside st fuel buf w _ hw1) (ih w1 r h)
      · exact separate_buffer_opens_inside st fuel buf w r h

/-! ## `separate_files`: what is extracted -/

theorem occursAt_singleton (c : Char) (s : Str) (k : Nat) :
    occursAt [c] s k = true ↔ s[k]? = some c := by
  unfold occursAt
  have hget : (s.drop k)[0]? = s[k]? := by rw [List.getElem?_drop, Nat.add_zero]
  rw [← hget]
  cases s.drop k with
  | nil => simp [List.isPrefixOf]
  | cons x t =>
    simp only [List.isPrefixOf, Bool.and_true, beq_iff_eq, List.getElem?_cons_zero,
      Option.some.injEq]
    exact eq_comm

set_option maxRecDepth 1000000 in
/-- C13 (as stated, refuted): in this buffer the begin marker stands at
offset 0, the first end marker at offset 32 and the first newline after the
begin marker at offset 62; the section is emitted, and its payload is
`SECRET`, the bytes at offsets 63 and up, all located after the end marker. -/
theorem section_payload_counterexample :
    find buffer_late_newline settings_out.begin_marker 0 = 0 ∧
      find buffer_late_newline settings_out.end_marker 0 = 32 ∧
      file_name_end settings_out buffer_late_newline 0 = 62 ∧
      section_payload settings_out buffer_late_newline 0 32 = some "SECRET".toList ∧
      buffer_late_newline.drop 63 = "SECRET".toList ∧
      (buffer_late_newline.take 32).drop 63 = [] ∧
      outcome (separate_buffer settings_out 10 buffer_late_newline
        (World.init (Disk.ofList []))) =
          some (.done, [("out/a.txt--!- BINER FILE END -!-- a.txt".toList, "SECRET".toList)]) := by
  decide

/-- C13 (amended): for a section that `separate_files` emits, with the first
end marker from `beginning` at offset `e` and the first newline from offset
`beginning + |begin_marker| + 1` at offset `f`, provided that newline comes
before the end marker (`f < e`): the recovered filename is the buffer text
from `beginning + |begin_marker| + 1` up to `f` (it holds no newline, and the
byte at `f` is a newline), the written payload is the buffer text from
`f + 1` up to `e`, taken from the bytes before `e` only, and these two are
what lines 117-144 store. -/
theorem section_extraction (st : Settings) (fileContents : Str) (beginning e f : Nat)
    (hlen : fileContents.length < npos)
    (he : find fileContents st.end_marker beginning = e) (hene : e ≠ npos)
    (hf : find fileContents "\n".toList (beginning + st.begin_marker.length + 1) = f)
    (hfe : f < e) :
    section_file_name st fileContents beginning =
        some ((fileContents.take f).drop (beginning + st.begin_marker.length + 1)) ∧
      section_payload st fileContents beginning e =
        some ((fileContents.take e).drop (f + 1)) ∧
      '\n' ∉ (fileContents.take f).drop (beginning + st.begin_marker.length + 1) ∧
      fileContents[f]? = some '\n' ∧
      ∀ w, emit_section st fileContents beginning e w =
        store_section st w
          ((fileContents.take f).drop (beginning + st.begin_marker.length + 1))
          ((fileContents.take e).drop (f + 1)) := by
  have hnpos : npos = 18446744073709551615 := rfl
  have hele : e ≤ fileContents.length := by
    rcases find_spec fileContents st.end_marker beginning with ⟨n, hn, hfn, _, _⟩ | ⟨hfn, _⟩
    · rw [hfn] at he; omega
    · rw [hfn] at he; exact absurd he.symm hene
  have hfne : f ≠ npos := by omega
  obtain ⟨n, hn, hfn, hat, hbefore⟩ :
      ∃ n, beginning + st.begin_marker.length + 1 + n ≤ fileContents.length ∧
        f = beginning + st.begin_marker.length + 1 + n ∧
        occursAt "\n".toList fileContents (beginning + st.begin_marker.length + 1 + n) = true ∧
        ∀ k, k < n →
          occursAt "\n".toList fileContents (beginning + st.begin_marker.length + 1 + k)
            = false := by
    rcases find_spec fileContents "\n".toList (beginning + st.begin_marker.length + 1) with
      ⟨n, hn, hfn, hat, hb⟩ | ⟨hfn, _⟩
    · exact ⟨n, hn, by rw [← hf, hfn], hat, hb⟩
    · rw [hfn] at hf; exact absurd hf.symm hfne
  have hfnb : file_name_beginning st beginning = beginning + st.begin_marker.length + 1 := by
    unfold file_name_beginning
    rw [wrap_of_lt (beginning + st.begin_marker.length) (by omega),
      wrap_of_lt (beginning + st.begin_marker.length + 1) (by omega)]
  have hfend : file_name_end st fileContents beginning = f := by
    unfold file_name_end
    rw [hfnb, hf]
  have hname : section_file_name st fileContents beginning =
      some ((fileContents.take f).drop (beginning + st.begin_marker.length + 1)) := by
    unfold section_file_name
    rw [hfend, hfnb, size_sub_of_le f (beginning + st.begin_marker.length + 1) (by omega)
      (by omega)]
    have hpos : ¬ fileContents.length < beginning + st.begin_marker.length + 1 := by omega
    simp only [substr, hpos, if_false, Option.some.injEq]
    rw [List.take_drop]
    congr 2
    omega
  have hpay : section_payload st fileContents beginning e =
      some ((fileContents.take e).drop (f + 1)) := by
    unfold section_payload
    rw [hfend, wrap_of_lt (f + 1) (by omega), size_sub_of_le e f (by omega) (by omega),
      size_sub_of_le (e - f) 1 (by omega) (by omega)]
    have hpos : ¬ fileContents.length < f + 1 := by omega
    simp only [substr, hpos, if_false, Option.some.injEq]
    rw [List.take_drop]
    congr 2
    omega
  refine ⟨hname, hpay, ?_, ?_, fun w => emit_section_eq_store st _ _ _ w _ _ hname hpay⟩
  · intro hmem
    obtain ⟨i, hi⟩ := List.mem_iff_getElem?.mp hmem
    rw [List.getElem?_drop] at hi
    have hlt : beginning + st.begin_marker.length + 1 + i < f := by
      rcases Nat.lt_or_ge (beginning + st.begin_marker.length + 1 + i) f with h | h
      · exact h
      · rw [List.getElem?_take_eq_none h] at hi
        cases hi
    rw [List.getElem?_take_of_lt hlt] at hi
    have hocc := (occursAt_singleton '\n' fileContents _).mpr hi
    have hfalse := hbefore i (by omega)
    rw [show "\n".toList = ['\n'] from rfl] at hfalse
    rw [hfalse] at hocc
    cases hocc
  · rw [hfn]
    exact (occursAt_singleton '\n' fileContents _).mp hat

set_option maxRecDepth 1000000 in
/-- Witness for C13 (amended): the first section of the bundle of S1, with
the newline at offset 32 and the end marker at offset 39. -/
theorem section_extraction_witness :
    find bundle_s1 settings_out.end_marker 0 = 39 ∧
      find bundle_s1 "\n".toList (0 + settings_out.begin_marker.length + 1) = 32 ∧
      section_file_name settings_out bundle_s1 0 = some "a.txt".toList ∧
      section_payload settings_out bundle_s1 0 39 = some "hello\n".toList :=
  have h := section_extraction settings_out bundle_s1 0 39 32 (by decide) (by decide)
    (by decide) (by decide) (by decide)
  ⟨by decide, by decide, h.1.trans (by decide), h.2.1.trans (by decide)⟩

/-! ## `separate_files`: out-of-range extraction -/

set_option maxRecDepth 1000000 in
/-- C16 (as stated, refuted): the markers `<<` and `<` are non-empty, hold no
newline and differ; the buffer `<<` passes validation; the filename starts
at offset 3, beyond the end of the buffer, and `substr` throws
`std::out_of_range`. -/
theorem section_file_name_counterexample :
    settings_nested.begin_marker ≠ [] ∧ settings_nested.end_marker ≠ [] ∧
      '\n' ∉ settings_nested.begin_marker ∧ '\n' ∉ settings_nested.end_marker ∧
      settings_nested.begin_marker ≠ settings_nested.end_marker ∧
      find "<<".toList settings_nested.begin_marker 0 = 0 ∧
      find "<<".toList settings_nested.end_marker 0 = 0 ∧
      file_name_beginning settings_nested 0 = 3 ∧
      section_file_name settings_nested "<<".toList 0 = none ∧
      outcome (separate_buffer settings_nested 10 "<<".toList (World.init (Disk.ofList [])))
        = some (.outOfRange, []) := by
  decide

/-- When the end marker is not a substring of the begin marker, some
character follows every begin marker that has an end marker at or after it. -/
theorem begin_marker_followed (st : Settings) (buf : Str) (b : Nat)
    (hsub : ¬ st.end_marker <:+: st.begin_marker)
    (hocc : occursAt st.begin_marker buf b = true)
    (he : find buf st.end_marker b ≠ npos) :
    b + st.begin_marker.length + 1 ≤ buf.length := by
  have hb : b ≤ buf.length := by
    rcases Nat.lt_or_ge buf.length b with h | h
    · exact absurd (by simp [find, h]) he
    · exact h
  rcases Nat.lt_or_ge (b + st.begin_marker.length) buf.length with h | h
  · omega
  · exfalso
    have hpre : st.begin_marker <+: buf.drop b := List.isPrefixOf_iff_prefix.mp hocc
    have heq : st.begin_marker = buf.drop b :=
      hpre.eq_of_length_le (by simp only [List.length_drop]; omega)
    rcases find_spec buf st.end_marker b with ⟨n, _, _, hat, _⟩ | ⟨hf, _⟩
    · rw [← occursAt_drop, ← heq] at hat
      exact hsub (substring_of_occursAt _ _ _ hat)
    · exact he hf

/-- With such markers, on a buffer shorter than `npos`, neither `substr` of
the section extraction is out of range. -/
theorem extraction_in_range (st : Settings) (buf : Str) (b : Nat)
    (hsub : ¬ st.end_marker <:+: st.begin_marker) (hlen : buf.length < npos)
    (hocc : occursAt st.begin_marker buf b = true)
    (he : find buf st.end_marker b ≠ npos) :
    (∃ name, section_file_name st buf b = some name) ∧
      ∃ payload, section_payload st buf b (find buf st.end_marker b) = some payload := by
  have hnpos : npos = 18446744073709551615 := rfl
  have hfol := begin_marker_followed st buf b hsub hocc he
  refine ⟨?_, section_payload_some st buf b _ hlen⟩
  have hfnb : file_name_beginning st b = b + st.begin_marker.length + 1 := by
    unfold file_name_beginning
    rw [wrap_of_lt (b + st.begin_marker.length) (by omega),
      wrap_of_lt (b + st.begin_marker.length + 1) (by omega)]
  have hpos : ¬ buf.length < b + st.begin_marker.length + 1 := by omega
  refine ⟨(buf.drop (b + st.begin_marker.length + 1)).take
    (size_sub (file_name_end st buf b) (b + st.begin_marker.length + 1)), ?_⟩
  simp only [section_file_name, hfnb, substr, hpos, if_false]

theorem emit_section_in_range (st : Settings) (buf : Str) (b : Nat) (w : World)
    (hsub : ¬ st.end_marker <:+: st.begin_marker) (hlen : buf.length < npos)
    (hocc : occursAt st.begin_marker buf b = true)
    (he : find buf st.end_marker b ≠ npos) (s : Status) (w1 : World)
    (h : emit_section st buf b (find buf st.end_marker b) w = .error (s, w1)) :
    s ≠ .outOfRange := by
  obtain ⟨⟨name, hname⟩, ⟨payload, hpay⟩⟩ := extraction_in_range st buf b hsub hlen hocc he
  rw [emit_section_eq_store st buf b _ w name payload hname hpay] at h
  unfold store_section at h
  split at h
  · cases h
    intro hs
    cases hs
  · cases h

theorem erase_length_le (buf erased : Str) (pos count : Nat)
    (h : erase buf pos count = some erased) : erased.length ≤ buf.length := by
  unfold erase at h
  split at h
  · cases h
  · cases h
    simp only [List.length_append, List.length_take, List.length_drop]
    omega

theorem separate_loop_in_range (st : Settings)
    (hsub : ¬ st.end_marker <:+: st.begin_marker) (fuel : Nat) :
    ∀ (buf : Str) (b : Nat) (w : World) (r : Status × World),
      buf.length < npos →
      (b = npos ∨ (b ≤ buf.length ∧ occursAt st.begin_marker buf b = true)) →
      separate_loop st fuel buf b w = some r → r.1 ≠ .outOfRange := by
  induction fuel with
  | zero =>
    intro buf b w r _ _ h
    simp [separate_loop] at h
  | succ fuel ih =>
    intro buf b w r hlen hb h
    unfold separate_loop at h
    split at h
    · cases h
      intro hs
      cases hs
    · rename_i hbn
      obtain ⟨hble, hocc⟩ : b ≤ buf.length ∧ occursAt st.begin_marker buf b = true := by
        rcases hb with hb | hb
        · exact absurd hb hbn
        · exact hb
      dsimp only at h
      split at h
      · rename_i r1 hr1
        cases h
        split at hr1
        · rename_i hend
          exact emit_section_in_range st buf b w hsub hlen hocc hend _ _ hr1
        · cases hr1
      · split at h
        · rename_i herase
          exfalso
          have hpos : ¬ buf.length < b := by omega
          simp [erase, hpos] at herase
        · rename_i erased herase
          apply ih erased _ _ r _ _ h
          · exact Nat.lt_of_le_of_lt (erase_length_le _ _ _ _ herase) hlen
          · rcases find_spec erased st.begin_marker b with ⟨n, hn, hfn, hat, _⟩ | ⟨hfn, _⟩
            · right
              rw [hfn]
              exact ⟨hn, hat⟩
            · left; exact hfn

/-- C16 (amended): when the end marker is not a substring of the begin marker
(as with the default markers) and the buffer is shorter than `npos`, section
extraction never fails with an out-of-range error: at every begin marker that
has an end marker at or after it, the filename and the payload `substr` both
start inside the buffer, and no run of `separate_files` on the buffer ends
with `std::out_of_range`. -/
theorem separate_buffer_in_range (st : Settings) (fileContents : Str)
    (hsub : ¬ st.end_marker <:+: st.begin_marker) (hlen : fileContents.length < npos) :
    (∀ b, occursAt st.begin_marker fileContents b = true →
      find fileContents st.end_marker b ≠ npos →
      (∃ name, section_file_name st fileContents b = some name) ∧
        ∃ payload,
          section_payload st fileContents b (find fileContents st.end_marker b)
            = some payload) ∧
    (∀ fuel w r, separate_buffer st fuel fileContents w = some r → r.1 ≠ .outOfRange) := by
  refine ⟨fun b hocc he => extraction_in_range st fileContents b hsub hlen hocc he, ?_⟩
  intro fuel w r h
  unfold separate_buffer at h
  split at h
  · cases h
    intro hs
    cases hs
  · apply separate_loop_in_range st hsub fuel fileContents _ w r hlen _ h
    rcases find_spec fileContents st.begin_marker 0 with ⟨n, hn, hfn, hat, _⟩ | ⟨hfn, _⟩
    · right
      rw [hfn]
      exact ⟨hn, hat⟩
    · left; exact hfn

set_option maxRecDepth 1000000 in
/-- Witness for C16 (amended): the default end marker is not a substring of
the default begin marker, and the first section of the bundle of S1 is
extracted in range. -/
theorem separate_buffer_in_range_witness :
    ¬ settings_out.end_marker <:+: settings_out.begin_marker ∧
      bundle_s1.length < npos ∧
      (∃ name, section_file_name settings_out bundle_s1 0 = some name) ∧
      ∃ payload,
        section_payload settings_out bundle_s1 0 (find bundle_s1 settings_out.end_marker 0)
          = some payload :=
  ⟨by decide, by decide,
    (separate_buffer_in_range settings_out bundle_s1 (by decide) (by decide)).1 0
      (by decide) (by decide)⟩

/-! ## `separate_files`: the text after the end marker -/

/-- No begin marker starts in what the erase of line 147 leaves of an
end-marker line whose trailer holds no begin marker, when the begin marker
holds no newline. -/
theorem no_begin_in_trailer (bm x next : Str) (hnl : '\n' ∉ bm) (hx : ¬ bm <:+: x) :
    ∀ k, k < ((x ++ ['\n']).drop 1).length →
      occursAt bm ((x ++ ['\n']).drop 1 ++ next) k = false := by
  intro k hk
  cases x with
  | nil => simp at hk
  | cons c x =>
    have hg : ((c :: x) ++ ['\n']).drop 1 = x ++ ['\n'] := rfl
    rw [hg] at hk ⊢
    simp only [List.length_append, List.length_singleton] at hk
    apply Bool.eq_false_iff.mpr
    intro hocc
    unfold occursAt at hocc
    rw [List.append_assoc, List.drop_append_of_le_length (by omega)] at hocc
    obtain ⟨t, ht⟩ := List.isPrefixOf_iff_prefix.mp hocc
    have hsplit : x = x.take k ++ x.drop k := (List.take_append_drop k x).symm
    rcases List.append_eq_append_iff.mp ht with ⟨a, ha, _⟩ | ⟨c1, hc1, hc2⟩
    · apply hx
      refine ⟨c :: x.take k, a, ?_⟩
      rw [List.append_assoc, ← ha, List.cons_append, List.take_append_drop]
    · cases c1 with
      | nil =>
        apply hx
        refine ⟨c :: x.take k, [], ?_⟩
        rw [List.append_nil] at hc1
        rw [List.append_nil, hc1, List.cons_append, List.take_append_drop]
      | cons h c1 =>
        simp only [List.singleton_append, List.cons_append, List.cons.injEq] at hc2
        apply hnl
        rw [hc1, ← hc2.1]
        exact List.mem_append_right _ (List.mem_cons_self _ _)

theorem withTrailer_wf (st : Settings) (name payload old new next : Str)
    (hnl : '\n' ∉ st.begin_marker) (hnew : new = old ∨ ¬ st.begin_marker <:+: new)
    (h : (Frame.withTrailer name payload old).wf st next) :
    (Frame.withTrailer name payload new).wf st next := by
  rcases hnew with hsame | hnew
  · rw [hsame]; exact h
  · obtain ⟨h1, _, h3, _⟩ := h
    refine ⟨h1, by simp [Frame.withTrailer], h3, ?_⟩
    exact no_begin_in_trailer st.begin_marker new next hnl hnew

theorem frames_wf_retrail (st : Settings) (hnl : '\n' ∉ st.begin_marker)
    (secs : List (Str × Str × Str × Str))
    (hnew : ∀ s ∈ secs, s.2.2.2 = s.2.2.1 ∨ ¬ st.begin_marker <:+: s.2.2.2)
    (h : frames_wf st (secs.map fun s => Frame.withTrailer s.1 s.2.1 s.2.2.1)) :
    frames_wf st (secs.map fun s => Frame.withTrailer s.1 s.2.1 s.2.2.2) := by
  induction secs with
  | nil => trivial
  | cons s rest ih =>
    cases rest with
    | nil =>
      exact withTrailer_wf st _ _ _ _ _ hnl (hnew s (List.mem_cons_self _ _)) h
    | cons s2 rest =>
      obtain ⟨hs, hrest⟩ := h
      exact ⟨withTrailer_wf st _ _ _ _ _ hnl (hnew s (List.mem_cons_self _ _)) hs,
        ih (fun x hx => hnew x (List.mem_cons_of_mem _ hx)) hrest⟩

theorem render_withTrailer (st : Settings) (name payload trailer : Str) :
    (Frame.withTrailer name payload trailer).render st =
      section_with st name payload trailer := by
  simp [Frame.render, Frame.lead, Frame.withTrailer, section_with, List.append_assoc]

theorem render_frames_withTrailer (st : Settings) (secs : List (Str × Str × Str × Str))
    (g : Str × Str × Str × Str → Str) :
    render_frames st (secs.map fun s => Frame.withTrailer s.1 s.2.1 (g s)) =
      (secs.map fun s => section_with st s.1 s.2.1 (g s)).flatten := by
  simp only [render_frames, List.map_map]
  congr 1
  apply List.map_congr_left
  intro s _
  exact render_withTrailer st s.1 s.2.1 (g s)

/-- The scan of a bundle of well-formed sections stores the filenames and
payloads of the sections, whatever the trailers. -/
theorem separate_buffer_withTrailer (st : Settings) (fuel : Nat) (w : World)
    (secs : List (Str × Str × Str × Str)) (g : Str × Str × Str × Str → Str)
    (hbm : st.begin_marker ≠ []) (hne : secs ≠ [])
    (hwf : frames_wf st (secs.map fun s => Frame.withTrailer s.1 s.2.1 (g s)))
    (hsize : (secs.map fun s => section_with st s.1 s.2.1 (g s)).flatten.length < npos)
    (hfuel : secs.length + 1 ≤ fuel) :
    separate_buffer st fuel (secs.map fun s => section_with st s.1 s.2.1 (g s)).flatten w =
      some (store_all st w (secs.map fun s => (s.1, s.2.1))) := by
  obtain ⟨s0, rest, rfl⟩ : ∃ s0 rest, secs = s0 :: rest := by
    cases secs with
    | nil => exact absurd rfl hne
    | cons s0 rest => exact ⟨s0, rest, rfl⟩
  have hbuf := render_frames_withTrailer st (s0 :: rest) g
  rw [List.map_cons] at hbuf
  have h := separate_buffer_frames st hbm [] (Frame.withTrailer s0.1 s0.2.1 (g s0))
    (rest.map fun s : Str × Str × Str × Str => Frame.withTrailer s.1 s.2.1 (g s)) w fuel
    (fun k hk => absurd hk (Nat.not_lt_zero k)) hwf
    (by rw [List.nil_append, hbuf]; exact hsize)
    (by simp only [List.length_map, List.length_cons] at hfuel ⊢; omega)
  rw [List.nil_append, hbuf] at h
  rw [h]
  congr 2
  simp [Frame.withTrailer, List.map_map, Function.comp]

/-- C14: the filename after the end marker is ignored.  For every bundle of
well-formed sections (with a non-empty begin marker that holds no newline, as
the settings require), replacing the text between the end marker and the
newline that ends its line, in any of the sections, by any text that holds
no newline and neither marker leaves the result of `separate_files` on the
bundle (files written, their names and contents, final status) unchanged: in
both cases the sections' filenames and payloads are stored in order. -/
theorem separate_ignores_trailer (st : Settings) (fuel : Nat) (w : World)
    (secs : List (Str × Str × Str × Str))
    (hne : secs ≠ [])
    (hbm : st.begin_marker ≠ [])
    (hnl : '\n' ∉ st.begin_marker)
    (hwf : frames_wf st (secs.map fun s => Frame.withTrailer s.1 s.2.1 s.2.2.1))
    (hnew : ∀ s ∈ secs, s.2.2.2 = s.2.2.1 ∨
      ('\n' ∉ s.2.2.2 ∧ ¬ st.begin_marker <:+: s.2.2.2 ∧ ¬ st.end_marker <:+: s.2.2.2))
    (hsize_old : (secs.map fun s => section_with st s.1 s.2.1 s.2.2.1).flatten.length < npos)
    (hsize_new : (secs.map fun s => section_with st s.1 s.2.1 s.2.2.2).flatten.length < npos)
    (hfuel : secs.length + 1 ≤ fuel) :
    separate_buffer st fuel (secs.map fun s => section_with st s.1 s.2.1 s.2.2.2).flatten w =
        separate_buffer st fuel (secs.map fun s => section_with st s.1 s.2.1 s.2.2.1).flatten w ∧
      separate_buffer st fuel (secs.map fun s => section_with st s.1 s.2.1 s.2.2.1).flatten w =
        some (store_all st w (secs.map fun s => (s.1, s.2.1))) := by
  have hwf2 := frames_wf_retrail st hnl secs
    (fun s hs => (hnew s hs).imp id (fun h => h.2.1)) hwf
  have hold := separate_buffer_withTrailer st fuel w secs (fun s => s.2.2.1) hbm hne hwf
    hsize_old hfuel
  have hnew2 := separate_buffer_withTrailer st fuel w secs (fun s => s.2.2.2) hbm hne hwf2
    hsize_new hfuel
  exact ⟨hnew2.trans hold.symm, hold⟩

set_option maxRecDepth 1000000 in
/-- Witness for C14: in the bundle of S1 the trailer ` a.txt` is replaced by
` something else` and the trailer ` b.txt` is kept. -/
theorem separate_ignores_trailer_witness :
    separate_buffer settings_out 10
        ([("a.txt".toList, "hello\n".toList, " a.txt".toList, " something else".toList),
          ("b.txt".toList, "world".toList, " b.txt".toList, " b.txt".toList)].map
            fun s => section_with settings_out s.1 s.2.1 s.2.2.2).flatten
        (World.init (Disk.ofList [])) =
      separate_buffer settings_out 10
        ([("a.txt".toList, "hello\n".toList, " a.txt".toList, " something else".toList),
          ("b.txt".toList, "world".toList, " b.txt".toList, " b.txt".toList)].map
            fun s => section_with settings_out s.1 s.2.1 s.2.2.1).flatten
        (World.init (Disk.ofList [])) :=
  (separate_ignores_trailer settings_out 10 (World.init (Disk.ofList []))
    [("a.txt".toList, "hello\n".toList, " a.txt".toList, " something else".toList),
      ("b.txt".toList, "world".toList, " b.txt".toList, " b.txt".toList)]
    (by decide) (by decide) (by decide)
    ⟨⟨by decide, by decide, by decide, by decide⟩,
      ⟨by decide, by decide, by decide, by decide⟩⟩
    (by decide) (by decide) (by decide) (by decide)).1

set_option maxRecDepth 1000000 in
/-- Witness for C15: the section named `../../etc/passwd`, separated into
`out/`, is opened as `out/passwd`. -/
theorem separate_files_opens_inside_witness :
    outcome (separate_files settings_out 10 [bundle_escape] (World.init (Disk.ofList []))) =
        some (.done, [("out/passwd".toList, "X".toList)]) ∧
      ∃ r, separate_files settings_out 10 [bundle_escape] (World.init (Disk.ofList [])) = some r ∧
        opens_inside settings_out (World.init (Disk.ofList [])).log r.2.log :=
  ⟨by decide, _, rfl,
    (separate_files_opens_inside settings_out).2 10 [bundle_escape]
      (World.init (Disk.ofList [])) _ rfl⟩

/-! ## Round trip into the working directory -/

end biner
